import Mathlib

/-!
Verification of the bustub storage-engine core (buffer pool, LRU replacer,
B+ tree index, index iterator) against its natural-language specification.

Each section embeds one source file as executable Lean definitions and
proves the specified properties about them:
* `Bustub.LRUReplacer`  — src/buffer/lru_replacer.cpp
* `Bustub.BufferPool`   — src/buffer/buffer_pool_manager.cpp
* `Bustub.Crab`         — latch-crabbing helpers of src/storage/index/b_plus_tree.cpp
* `Bustub.PinTrace`     — pin/unpin event traces of b_plus_tree.cpp operation paths
* `Bustub.CoR`          — BPlusTree::CoalesceOrRedistribute of b_plus_tree.cpp
* `Bustub.Iter`         — src/storage/index/index_iterator.cpp
* `Bustub.BPT`          — the insert path of b_plus_tree.cpp
-/

namespace Bustub

/-- `INVALID_PAGE_ID` sentinel (= -1). -/
def INVALID_PAGE_ID : Int := -1

/- Page ids (`page_id_t`) and frame ids (`frame_id_t`) are 32-bit integers
in the source; both are modelled as `Int`. -/

/-! ## LRU replacer (src/buffer/lru_replacer.cpp) -/

/-- State of `LRUReplacer`: the doubly linked list `unpin_list_` of frame ids
(front = most recently unpinned, back = least recently unpinned) and the
capacity `max_num_pages_`.  The auxiliary `unpin_map_` only caches list
positions for O(1) erasure and is represented implicitly by list
membership. -/
structure LRUReplacer where
  maxNumPages : Nat
  unpinList : List Int
  deriving DecidableEq

/-- `LRUReplacer::Victim` (lines 21-33): if the list is empty return failure,
else remove and return the back (least recently unpinned) element. -/
def LRUReplacer.Victim (r : LRUReplacer) : Option Int × LRUReplacer :=
  match r.unpinList.getLast? with
  | none => (none, r)
  | some f => (some f, { r with unpinList := r.unpinList.dropLast })

/-- `LRUReplacer::Pin` (lines 35-43): if the frame is present, erase it from
the list (it occurs at most once); otherwise do nothing. -/
def LRUReplacer.Pin (r : LRUReplacer) (f : Int) : LRUReplacer :=
  if f ∈ r.unpinList then { r with unpinList := r.unpinList.erase f } else r

/-- `LRUReplacer::Unpin` (lines 45-53): if the frame is absent, push it to the
front (MRU end); otherwise do nothing.  The `BUSTUB_ASSERT` that the list is
not full only guards an impossible state and has no effect on the result. -/
def LRUReplacer.Unpin (r : LRUReplacer) (f : Int) : LRUReplacer :=
  if f ∈ r.unpinList then r else { r with unpinList := f :: r.unpinList }

/-- `LRUReplacer::Size` (lines 55-58). -/
def LRUReplacer.Size (r : LRUReplacer) : Nat := r.unpinList.length

/-- Call `Victim` `n` times, collecting the results in order. -/
def lruVictims : LRUReplacer → Nat → List (Option Int)
  | _, 0 => []
  | r, n + 1 =>
    let (v, r') := r.Victim
    v :: lruVictims r' n

/-- The S1 scenario of the spec: capacity 7; `Unpin(1..6)`; `Pin(1), Pin(4)`;
`Unpin(1), Unpin(4)`. -/
def lruScenario : LRUReplacer :=
  ((((((((((⟨7, []⟩ : LRUReplacer).Unpin 1).Unpin 2).Unpin 3).Unpin 4).Unpin 5).Unpin
      6).Pin 1).Pin 4).Unpin 1).Unpin 4

/-- C3, counterexample: on the S1 scenario the four victims are NOT
`5, 6, 2, 3`.  (They are `2, 3, 5, 6`: the back of the list is the least
recently unpinned frame, and frames 2 and 3 were unpinned before 5 and 6
and never re-pinned.) -/
theorem c3_counterexample :
    ¬ (lruVictims lruScenario 4 = [some 5, some 6, some 2, some 3]) := by
  decide

/-- C3 (amended): on the S1 scenario the four victims are `2, 3, 5, 6` in
that order; in general `Unpin` inserts an absent frame at the
most-recently-unpinned (front) end and `Victim` removes and returns the
frame at the least-recently-unpinned (back) end. -/
theorem c3_amended :
    lruVictims lruScenario 4 = [some 2, some 3, some 5, some 6] ∧
    (∀ (r : LRUReplacer) (f : Int), f ∉ r.unpinList →
      (r.Unpin f).unpinList = f :: r.unpinList) ∧
    (∀ r : LRUReplacer, r.unpinList ≠ [] →
      (r.Victim).1 = r.unpinList.getLast? ∧
      (r.Victim).2.unpinList = r.unpinList.dropLast) := by
  refine ⟨by decide, ?_, ?_⟩
  · intro r f hf
    simp [LRUReplacer.Unpin, hf]
  · intro r hr
    rcases h : r.unpinList.getLast? with _ | f
    · exact absurd (List.getLast?_eq_none_iff.mp h) hr
    · simp [LRUReplacer.Victim, h]

/-- Witness for `c3_amended` at concrete inputs. -/
theorem c3_amended_witness :
    lruVictims lruScenario 4 = [some 2, some 3, some 5, some 6] ∧
    ((⟨7, [2, 3]⟩ : LRUReplacer).Unpin 1).unpinList = [1, 2, 3] ∧
    ((⟨7, [1, 2, 3]⟩ : LRUReplacer).Victim).1 = some 3 := by
  refine ⟨c3_amended.1, ?_, ?_⟩
  · exact c3_amended.2.1 ⟨7, [2, 3]⟩ 1 (by decide)
  · exact ((c3_amended.2.2 ⟨7, [1, 2, 3]⟩ (by decide)).1).trans (by decide)

/-! ## Index iterator (src/storage/index/index_iterator.cpp) -/

namespace Iter

/-- The leaf-page fields the iterator reads.  `GetSize`, `GetNextPageId` and
`GetPageId` are plain accessors of `BPlusTreeLeafPage` (declared outside
src/); they are represented as structure fields. -/
structure LeafView where
  pageId : Int
  size : Int
  nextPageId : Int
  deriving DecidableEq

/-- Iterator state: the current leaf (`lp_`, identified by its page id and
looked up in a leaf store) and `current_index_`.  The buffer-pool member
`bpm_` is modelled by the fetch/unpin events `inc` reports. -/
structure IterState where
  lp : Int
  currentIndex : Int
  deriving DecidableEq

/-- `IndexIterator::isEnd` (line 25):
`lp_->GetSize() == current_index_ && lp_->GetNextPageId() == INVALID_PAGE_ID`. -/
def isEnd (store : Int → LeafView) (s : IterState) : Bool :=
  (store s.lp).size == s.currentIndex && (store s.lp).nextPageId == INVALID_PAGE_ID

/-- `IndexIterator::operator++` (lines 31-42): increment `current_index_`;
if it now equals the leaf's size and the next page id is valid, fetch the
next leaf, reset the index to 0 and unpin the old leaf.  The second
component lists the page ids fetched during the call. -/
def inc (store : Int → LeafView) (s : IterState) : IterState × List Int :=
  let ci := s.currentIndex + 1
  let nextPageId := (store s.lp).nextPageId
  if (store s.lp).size == ci && nextPageId != INVALID_PAGE_ID then
    (⟨nextPageId, 0⟩, [nextPageId])
  else
    (⟨s.lp, ci⟩, [])

/-- C10: from an end position (`isEnd` true), `operator++` increments the
index past the leaf's size without fetching any page, and afterwards
`isEnd` returns false — the end position is not a fixed point of
advancement and the dereference index leaves the leaf's valid entry
range. -/
theorem c10_end_not_fixed (store : Int → LeafView) (s : IterState)
    (h : isEnd store s = true) :
    inc store s = (⟨s.lp, s.currentIndex + 1⟩, []) ∧
    isEnd store (inc store s).1 = false ∧
    (store ((inc store s).1).lp).size < ((inc store s).1).currentIndex := by
  simp only [isEnd, Bool.and_eq_true, beq_iff_eq] at h
  obtain ⟨hsz, hnx⟩ := h
  have hguard : ((store s.lp).size == s.currentIndex + 1 &&
      (store s.lp).nextPageId != INVALID_PAGE_ID) = false := by
    simp [hnx]
  refine ⟨by simp only [inc, hguard]; simp, ?_, ?_⟩
  · simp only [inc, hguard, if_false]
    simp only [isEnd]
    simp [hsz]
  · simp only [inc, hguard, if_false]
    simp [hsz]

/-- Witness for `c10_end_not_fixed`: a one-leaf store whose single leaf has
size 2 and no successor, with the iterator at index 2. -/
theorem c10_witness :
    inc (fun _ => ⟨1, 2, INVALID_PAGE_ID⟩) ⟨1, 2⟩ = (⟨1, 3⟩, []) ∧
    isEnd (fun _ => ⟨1, 2, INVALID_PAGE_ID⟩) (inc (fun _ => ⟨1, 2, INVALID_PAGE_ID⟩) ⟨1, 2⟩).1 = false := by
  have h := c10_end_not_fixed (fun _ => ⟨1, 2, INVALID_PAGE_ID⟩) ⟨1, 2⟩ (by decide)
  exact ⟨h.1, h.2.1⟩

end Iter

/-! ## Latch crabbing (src/storage/index/b_plus_tree.cpp, lines 576-656) -/

namespace Crab

/-- The operation intent (`enum OpType`). -/
inductive OpType where
  | READ
  | INSERT
  | DELETE
  deriving DecidableEq

/-- The `BPlusTreePage` header fields `IsSafe` reads (`GetSize`,
`GetMaxSize`, `GetMinSize` are accessors declared outside src/). -/
structure BPlusTreePage where
  size : Int
  maxSize : Int
  minSize : Int
  deriving DecidableEq

/-- `BPlusTree::IsSafe` (lines 601-608): for INSERT,
`size < max_size - 1`; otherwise `size > min_size`. -/
def IsSafe (bptp : BPlusTreePage) (op : OpType) : Bool :=
  if op = OpType.INSERT then
    bptp.size < bptp.maxSize - 1
  else
    bptp.size > bptp.minSize

/-- Latch/pin bookkeeping state during a descent: the transaction's page set
(latched ancestors, in acquisition order) and the buffer-pool pin counts. -/
structure CrabState where
  pageSet : List Int
  pins : Int → Int

/-- The pin effect of `BPlusTree::ReleaseAndUnpin` (lines 576-599): every
page in the transaction's page set is unlatched and unpinned once, then the
set is cleared.  (The deleted-page sweep does not touch pin counts.) -/
def ReleaseAndUnpinM (s : CrabState) : CrabState :=
  { pageSet := [],
    pins := s.pageSet.foldl (fun g q => fun x => if x = q then g x - 1 else g x) s.pins }

/-- One iteration of the descent loop of `BPlusTree::FindLeafPageWithLock`
(lines 616-629, identical logic at the leaf in lines 642-654), acting on a
newly fetched and latched child: for READ, release all ancestors; for a
write intent, release all ancestors exactly if `IsSafe` holds of the child;
then add the child to the page set. -/
def CrabStep (op : OpType) (child : BPlusTreePage) (childId : Int)
    (s : CrabState) : CrabState :=
  let s :=
    if op = OpType.READ then ReleaseAndUnpinM s
    else if IsSafe child op then ReleaseAndUnpinM s else s
  { s with pageSet := s.pageSet ++ [childId] }

/-- C5: the safe-node predicate for insert intent holds exactly when
`size < max_size - 1` and for delete intent exactly when
`size > min_size`; during a write descent the ancestors' latches and pins
are released exactly when the newly latched child satisfies the predicate
(when it does, each page of the old page set is unpinned and only the child
remains in the set; when it does not, the pins are untouched and the child
is appended to the set). -/
theorem c5_safe_node (b : BPlusTreePage) (op : OpType) (childId : Int)
    (s : CrabState) (hop : op = OpType.INSERT ∨ op = OpType.DELETE) :
    (IsSafe b OpType.INSERT = true ↔ b.size < b.maxSize - 1) ∧
    (IsSafe b OpType.DELETE = true ↔ b.size > b.minSize) ∧
    (IsSafe b op = true →
      (CrabStep op b childId s).pageSet = [childId] ∧
      (CrabStep op b childId s).pins = (ReleaseAndUnpinM s).pins) ∧
    (IsSafe b op = false →
      (CrabStep op b childId s).pageSet = s.pageSet ++ [childId] ∧
      (CrabStep op b childId s).pins = s.pins) := by
  have hnr : ¬ (op = OpType.READ) := by
    rcases hop with h | h <;> simp [h]
  refine ⟨by simp [IsSafe], by simp [IsSafe], ?_, ?_⟩
  · intro hsafe
    simp [CrabStep, hnr, hsafe, ReleaseAndUnpinM]
  · intro hunsafe
    simp [CrabStep, hnr, hunsafe]

/-- Witness for `c5_safe_node` at a concrete node, intent and state. -/
theorem c5_witness :
    (IsSafe ⟨2, 5, 1⟩ OpType.INSERT = true ↔ (2 : Int) < 5 - 1) ∧
    (CrabStep OpType.INSERT ⟨2, 5, 1⟩ 9 ⟨[7, 8], fun _ => 1⟩).pageSet = [9] := by
  have h := c5_safe_node ⟨2, 5, 1⟩ OpType.INSERT 9 ⟨[7, 8], fun _ => 1⟩ (Or.inl rfl)
  exact ⟨h.1, (h.2.2.1 (by decide)).1⟩

end Crab

/-! ## Pin/unpin traces of tree-operation paths (b_plus_tree.cpp) -/

namespace PinTrace

/-- A buffer-pool call that changes a pin count: `FetchPage`/`NewPage`
increment the pin count of the given page id by one, `UnpinPage` decrements
it by one. -/
inductive PinEvent where
  | fetchP (pid : Int)
  | unpinP (pid : Int)
  deriving DecidableEq

/-- Net pin-count change of a trace for page `p`. -/
def netPins (tr : List PinEvent) (p : Int) : Int :=
  tr.foldl (fun n e =>
    match e with
    | .fetchP q => if q = p then n + 1 else n
    | .unpinP q => if q = p then n - 1 else n) 0

/-- Pin events of `BPlusTree::GetValue` (lines 48-56) when the tree is
empty: the guard page is fetched and read-latched, `IsEmpty()` is true, the
latch is dropped and the function returns — with no `UnpinPage` call.  The
`Insert` (lines 84-93) and `Remove` (lines 246-254) empty-tree paths fetch
and leak the guard page in the same way. -/
def GetValueEmptyTrace (guard : Int) : List PinEvent :=
  [.fetchP guard]

/-- Pin events of the right-redistribute branch of
`BPlusTree::CoalesceOrRedistribute` (lines 358-382) when the node has no
left sibling: the parent was fetched at line 290, the right sibling at line
360, and the branch ends with `UnpinPage(right_sib_index, true)` (line 380
— the frame *index*, not the sibling's page id) and
`UnpinPage(parent_id, true)` (line 382). -/
def CoRRightRedistributeTrace (parentId rightSibId rightSibIndex : Int) :
    List PinEvent :=
  [.fetchP parentId, .fetchP rightSibId, .unpinP rightSibIndex, .unpinP parentId]

/-- C1 fails on the code: the empty-tree `GetValue` path leaves the guard
page's pin count one higher than before the call, and the
right-redistribute branch of `CoalesceOrRedistribute` (with
`right_sib_id = 5` and `right_sib_index = 1`) leaves the right sibling's
pin count one higher, because line 380 unpins the frame index instead of
the sibling page id. -/
theorem c1_pin_leak :
    netPins (GetValueEmptyTrace 0) 0 = 1 ∧
    netPins (CoRRightRedistributeTrace 3 5 1) 5 = 1 := by
  decide

end PinTrace

/-! ## Buffer pool manager (src/buffer/buffer_pool_manager.cpp) -/

/-- Page contents: a fixed-size byte array (4096 bytes). -/
abbrev PageData := List Nat

/-- `PAGE_SIZE` (4096). -/
def PAGE_SIZE : Nat := 4096

/-- The all-zero page produced by `Page::ResetMemory`. -/
def zeroData : PageData := List.replicate PAGE_SIZE 0

/-- Pointwise update of a function on `Int` keys. -/
def upd {β : Type} (g : Int → β) (i : Int) (v : β) : Int → β :=
  fun j => if j = i then v else g j

/-- A frame's `Page` object: `page_id_`, `pin_count_`, `is_dirty_` and the
raw `data_` bytes.  (The per-page latch is orthogonal to this model.) -/
structure Frame where
  pageId : Int
  pinCount : Int
  isDirty : Bool
  data : PageData
  deriving DecidableEq

/-- The page table `page_table_ : page_id → frame_id`, as an association
list with distinct keys. -/
abbrev PageTable := List (Int × Int)

/-- Map lookup in the page table. -/
def ptLookup (pt : PageTable) (p : Int) : Option Int :=
  (pt.find? (fun e => e.1 == p)).map Prod.snd

/-- Map erasure (`page_table_.erase(p)`). -/
def ptErase (pt : PageTable) (p : Int) : PageTable :=
  pt.filter (fun e => e.1 != p)

/-- Map assignment (`page_table_[p] = f`). -/
def ptInsert (pt : PageTable) (p : Int) (f : Int) : PageTable :=
  (p, f) :: ptErase pt p

/-- Modelled from the spec (§6 disk manager contract):
`DiskManager::WritePage` — synchronous durable write of one page. -/
def diskWrite (d : Int → PageData) (p : Int) (v : PageData) :
    Int → PageData :=
  fun q => if q = p then v else d q

/-- State of `BufferPoolManager`: the frame array `pages_`, `page_table_`,
`free_list_`, `replacer_`, the allocator cursor `next_page_id_` and the
disk manager's contents.  `deallocated` records the page ids passed to
`DiskManager::DeallocatePage`. -/
structure BufferPool where
  poolSize : Nat
  pages : Int → Frame
  pageTable : PageTable
  freeList : List Int
  replacer : LRUReplacer
  nextPageId : Int
  disk : Int → PageData
  deallocated : List Int

/-- `BufferPoolManagerInstance::InitNewPage` (lines 163-182): take a frame
from the free list if possible, otherwise evict the replacer's victim
(erasing its page-table entry and writing it back if dirty); then reset the
frame's memory, clear dirty, set the page id, pin it once, and insert the
new page-table entry.  Returns the chosen frame. -/
def InitNewPage (bp : BufferPool) (pid : Int) : Int × BufferPool :=
  match bp.freeList with
  | f :: rest =>
    (f, { bp with
          freeList := rest,
          pages := upd bp.pages f ⟨pid, 1, false, zeroData⟩,
          pageTable := ptInsert bp.pageTable pid f })
  | [] =>
    match bp.replacer.Victim with
    | (some f, rep) =>
      let victim := bp.pages f
      (f, { bp with
            replacer := rep,
            pageTable := ptInsert (ptErase bp.pageTable victim.pageId) pid f,
            disk := if victim.isDirty then diskWrite bp.disk victim.pageId victim.data
                    else bp.disk,
            pages := upd bp.pages f ⟨pid, 1, false, zeroData⟩ })
    | (none, _) => (0, bp)

/-- `BufferPoolManager::FetchPageImpl` (lines 37-64): on a hit, pin the
frame (removing it from the replacer if its pin count was 0); on a miss,
fail if no frame is free or evictable, else claim a frame with
`InitNewPage` and read the page in from disk. -/
def FetchPageImpl (bp : BufferPool) (pid : Int) : Option Int × BufferPool :=
  match ptLookup bp.pageTable pid with
  | some f =>
    let bp1 := if (bp.pages f).pinCount = 0 then { bp with replacer := bp.replacer.Pin f }
               else bp
    (some f, { bp1 with
               pages := upd bp1.pages f
                 { bp1.pages f with pinCount := (bp1.pages f).pinCount + 1 } })
  | none =>
    if bp.freeList.isEmpty && bp.replacer.Size == 0 then (none, bp)
    else
      let r := InitNewPage bp pid
      (some r.1, { r.2 with
                   pages := upd r.2.pages r.1
                     { r.2.pages r.1 with data := r.2.disk pid } })

/-- `BufferPoolManager::UnpinPageImpl` (lines 66-85): false if the page is
unknown or its pin count is not positive; otherwise OR the dirty flag in,
decrement the pin count, and hand the frame to the replacer when the count
reaches 0. -/
def UnpinPageImpl (bp : BufferPool) (pid : Int) (isDirty : Bool) :
    Bool × BufferPool :=
  match ptLookup bp.pageTable pid with
  | none => (false, bp)
  | some f =>
    if (bp.pages f).pinCount ≤ 0 then (false, bp)
    else
      let pg := { bp.pages f with
                  isDirty := (bp.pages f).isDirty || isDirty,
                  pinCount := (bp.pages f).pinCount - 1 }
      if pg.pinCount = 0 then
        (true, { bp with pages := upd bp.pages f pg, replacer := bp.replacer.Unpin f })
      else
        (true, { bp with pages := upd bp.pages f pg })

/-- `BufferPoolManager::FlushPageImpl` (lines 87-102): false on
`INVALID_PAGE_ID` or an unknown page; otherwise write the frame back if
dirty and clear the dirty flag.  Does not unpin. -/
def FlushPageImpl (bp : BufferPool) (pid : Int) : Bool × BufferPool :=
  if pid = INVALID_PAGE_ID then (false, bp)
  else
    match ptLookup bp.pageTable pid with
    | none => (false, bp)
    | some f =>
      if (bp.pages f).isDirty then
        (true, { bp with
                 disk := diskWrite bp.disk (bp.pages f).pageId (bp.pages f).data,
                 pages := upd bp.pages f { bp.pages f with isDirty := false } })
      else (true, bp)

/-- `BufferPoolManager::NewPageImpl` (lines 104-121): fail if no frame is
free or evictable; otherwise allocate a fresh page id
(`AllocatePage`, lines 184-186: `next_page_id_++`), claim a frame with
`InitNewPage`, and write the (zeroed) frame to disk.  Returns the new page
id and frame. -/
def NewPageImpl (bp : BufferPool) : Option (Int × Int) × BufferPool :=
  if bp.freeList.isEmpty && bp.replacer.Size == 0 then (none, bp)
  else
    let pid := bp.nextPageId
    let bp1 := { bp with nextPageId := bp.nextPageId + 1 }
    let r := InitNewPage bp1 pid
    (some (pid, r.1), { r.2 with
                        disk := diskWrite r.2.disk ((r.2.pages r.1).pageId)
                          ((r.2.pages r.1).data) })

/-- `BufferPoolManager::DeletePageImpl` (lines 123-150): true (no-op) if the
page is unknown; false if it is pinned; otherwise remove it from the
replacer and page table, write it back if dirty, reset the frame, return
the frame to the free list and deallocate the page id. -/
def DeletePageImpl (bp : BufferPool) (pid : Int) : Bool × BufferPool :=
  match ptLookup bp.pageTable pid with
  | none => (true, bp)
  | some f =>
    if (bp.pages f).pinCount > 0 then (false, bp)
    else
      (true, { bp with
               replacer := bp.replacer.Pin f,
               pageTable := ptErase bp.pageTable pid,
               disk := if (bp.pages f).isDirty then diskWrite bp.disk pid (bp.pages f).data
                       else bp.disk,
               pages := upd bp.pages f ⟨INVALID_PAGE_ID, 0, false, zeroData⟩,
               freeList := bp.freeList ++ [f],
               deallocated := bp.deallocated ++ [pid] })

/-- One iteration of `BufferPoolManager::FlushAllPagesImpl` (lines 152-161):
write frame `f` back and clear its dirty flag if it holds a page
(`page_id_ != INVALID_PAGE_ID`) that is dirty. -/
def flushFrame (bp : BufferPool) (f : Int) : BufferPool :=
  if (bp.pages f).pageId ≠ INVALID_PAGE_ID ∧ (bp.pages f).isDirty then
    { bp with
      disk := diskWrite bp.disk (bp.pages f).pageId (bp.pages f).data,
      pages := upd bp.pages f { bp.pages f with isDirty := false } }
  else bp

/-- `BufferPoolManager::FlushAllPagesImpl`: iterate over all frames. -/
def FlushAllPagesImpl (bp : BufferPool) : BufferPool :=
  (List.range bp.poolSize).foldl (fun b i => flushFrame b (Int.ofNat i)) bp

/-- The `BufferPoolManager` constructor (lines 20-30): every frame starts on
the free list; the page table and replacer are empty; `next_page_id_`
starts at 0. -/
def initBufferPool (n : Nat) (disk0 : Int → PageData) : BufferPool :=
  { poolSize := n
    pages := fun _ => ⟨INVALID_PAGE_ID, 0, false, zeroData⟩
    pageTable := []
    freeList := (List.range n).map Int.ofNat
    replacer := ⟨n, []⟩
    nextPageId := 0
    disk := disk0
    deallocated := [] }

/-- A buffer-pool API call (the six public operations). -/
inductive BPOp where
  | fetch (pid : Int)
  | unpin (pid : Int) (isDirty : Bool)
  | new
  | del (pid : Int)
  | flush (pid : Int)
  | flushAll
  deriving DecidableEq

/-- The state transition of one buffer-pool call. -/
def bpStep (bp : BufferPool) : BPOp → BufferPool
  | .fetch pid => (FetchPageImpl bp pid).2
  | .unpin pid d => (UnpinPageImpl bp pid d).2
  | .new => (NewPageImpl bp).2
  | .del pid => (DeletePageImpl bp pid).2
  | .flush pid => (FlushPageImpl bp pid).2
  | .flushAll => FlushAllPagesImpl bp

/-- Run a sequence of buffer-pool calls. -/
def bpRun (bp : BufferPool) : List BPOp → BufferPool
  | [] => bp
  | op :: ops => bpRun (bpStep bp op) ops

/-- A call is valid when `FetchPage` is only asked for a page id that has
already been allocated (is below `next_page_id_`); all other calls are
unrestricted. -/
def validOp (bp : BufferPool) : BPOp → Bool
  | .fetch pid => pid < bp.nextPageId
  | _ => true

/-- Validity of a call sequence from a given state. -/
def validFrom (bp : BufferPool) : List BPOp → Bool
  | [] => true
  | op :: ops => validOp bp op && validFrom (bpStep bp op) ops

/-- C7: `DeletePage` on an unknown page id returns true and is a no-op; on
a resident page with positive pin count it returns false and leaves the
whole state unchanged; on a resident page with pin count 0 it returns
true, removes the page-table entry, returns the frame to the free list and
deallocates the page id. -/
theorem c7_delete_page (bp : BufferPool) (p : Int) :
    (ptLookup bp.pageTable p = none → DeletePageImpl bp p = (true, bp)) ∧
    (∀ f, ptLookup bp.pageTable p = some f → 0 < (bp.pages f).pinCount →
      DeletePageImpl bp p = (false, bp)) ∧
    (∀ f, ptLookup bp.pageTable p = some f → (bp.pages f).pinCount = 0 →
      (DeletePageImpl bp p).1 = true ∧
      (DeletePageImpl bp p).2.pageTable = ptErase bp.pageTable p ∧
      (DeletePageImpl bp p).2.freeList = bp.freeList ++ [f] ∧
      (DeletePageImpl bp p).2.deallocated = bp.deallocated ++ [p]) := by
  refine ⟨?_, ?_, ?_⟩
  · intro h
    simp [DeletePageImpl, h]
  · intro f h hpin
    simp [DeletePageImpl, h, hpin]
  · intro f h hpin
    simp [DeletePageImpl, h, hpin]

/-- A concrete one-frame pool holding page 0 unpinned, for witnesses. -/
def bpWitness : BufferPool :=
  { poolSize := 1
    pages := fun _ => ⟨0, 0, false, zeroData⟩
    pageTable := [(0, 0)]
    freeList := []
    replacer := ⟨1, [0]⟩
    nextPageId := 1
    disk := fun _ => zeroData
    deallocated := [] }

/-- Witness for `c7_delete_page`: page 5 is unknown to `bpWitness` and page
0 is resident with pin count 0. -/
theorem c7_witness :
    DeletePageImpl bpWitness 5 = (true, bpWitness) ∧
    (DeletePageImpl bpWitness 0).1 = true ∧
    (DeletePageImpl bpWitness 0).2.freeList = [0] := by
  have h := c7_delete_page bpWitness 5
  have h0 := c7_delete_page bpWitness 0
  refine ⟨h.1 (by decide), ?_, ?_⟩
  · exact ((h0.2.2) 0 (by decide) (by decide)).1
  · exact ((h0.2.2) 0 (by decide) (by decide)).2.2.1

/-- `Victim` returns `none` exactly on an empty list. -/
theorem Victim_fst_eq_none {r : LRUReplacer} :
    (r.Victim).1 = none ↔ r.unpinList = [] := by
  unfold LRUReplacer.Victim
  rcases h : r.unpinList.getLast? with _ | f
  · simpa using List.getLast?_eq_none_iff.mp h
  · simp
    intro he
    rw [he] at h
    simp at h

/-- C9: every successful `NewPage` call writes the freshly allocated page
id to disk with the all-zero 4096-byte buffer before returning, so the new
page is durable as a zeroed page; the allocated id is `next_page_id_`. -/
theorem c9_new_page_zero_on_disk (bp : BufferPool) (pid : Int) (f : Int)
    (bp' : BufferPool) (h : NewPageImpl bp = (some (pid, f), bp')) :
    bp'.disk pid = zeroData ∧ (bp'.pages f).data = zeroData ∧
    pid = bp.nextPageId := by
  unfold NewPageImpl at h
  split at h
  · simp at h
  next hguard =>
    set bp1 := { bp with nextPageId := bp.nextPageId + 1 } with hbp1
    have hinit : (InitNewPage bp1 bp.nextPageId).2.pages (InitNewPage bp1 bp.nextPageId).1
        = ⟨bp.nextPageId, 1, false, zeroData⟩ := by
      unfold InitNewPage
      rcases hfl : bp1.freeList with _ | ⟨f0, rest⟩
      · rcases hv : bp1.replacer.Victim with ⟨ov, rep⟩
        rcases ov with _ | f0
        · have : bp1.replacer.unpinList = [] := by
            have := (Victim_fst_eq_none (r := bp1.replacer))
            rw [hv] at this
            simpa using this
          have hfl' : bp.freeList = [] := by simpa [hbp1] using hfl
          have hsz : bp.replacer.Size = 0 := by
            simp [LRUReplacer.Size]
            simpa [hbp1] using this
          simp [hfl', hsz] at hguard
        · simp only [hfl, hv]
          simp [upd]
      · simp only [hfl]
        simp [upd]
    have h1 := congrArg Prod.fst h
    have h2 := congrArg Prod.snd h
    simp only at h1 h2
    obtain ⟨rfl, rfl⟩ : pid = bp.nextPageId ∧ f = (InitNewPage bp1 bp.nextPageId).1 := by
      have := h1.symm
      simp at this
      exact ⟨this.1, this.2⟩
    refine ⟨?_, ?_, rfl⟩
    · rw [← h2]
      simp [hinit, diskWrite]
    · rw [← h2]
      simp [hinit]

/-- Witness for `c9_new_page_zero_on_disk` on a fresh one-frame pool. -/
theorem c9_witness :
    ((NewPageImpl (initBufferPool 1 (fun _ => zeroData))).2).disk 0 = zeroData := by
  have h := c9_new_page_zero_on_disk (initBufferPool 1 (fun _ => zeroData)) 0 0
      ((NewPageImpl (initBufferPool 1 (fun _ => zeroData))).2)
      (Prod.ext (by decide) rfl)
  exact h.1

/-! ### Association-list and replacer lemmas -/

theorem ptLookup_cons {q : Int} {g : Int} {pt : PageTable} {p : Int} :
    ptLookup ((q, g) :: pt) p = if q = p then some g else ptLookup pt p := by
  by_cases h : q = p
  · subst h
    unfold ptLookup
    rw [List.find?_cons_of_pos _ (by simp)]
    simp
  · unfold ptLookup
    rw [List.find?_cons_of_neg _ (by simp [h])]
    simp [h]

theorem ptErase_cons (q : Int) (g : Int) (pt : PageTable) (p : Int) :
    ptErase ((q, g) :: pt) p =
      if q = p then ptErase pt p else (q, g) :: ptErase pt p := by
  by_cases h : q = p
  · simp [ptErase, List.filter_cons, h]
  · simp [ptErase, List.filter_cons, h]

theorem ptLookup_eq_some_iff {pt : PageTable} (hnd : (pt.map Prod.fst).Nodup)
    {p : Int} {f : Int} : ptLookup pt p = some f ↔ (p, f) ∈ pt := by
  induction pt with
  | nil => simp [ptLookup]
  | cons e rest ih =>
    rcases e with ⟨q, g⟩
    simp only [List.map_cons, List.nodup_cons] at hnd
    rw [ptLookup_cons]
    by_cases hq : q = p
    · subst hq
      rw [if_pos rfl]
      constructor
      · intro h
        simp at h
        subst h
        exact List.mem_cons_self _ _
      · intro h
        rcases List.mem_cons.mp h with h | h
        · simp at h
          simp [h]
        · exact absurd (List.mem_map.mpr ⟨(q, f), h, rfl⟩) hnd.1
    · rw [if_neg hq, ih hnd.2]
      constructor
      · intro h
        exact List.mem_cons.mpr (Or.inr h)
      · intro h
        rcases List.mem_cons.mp h with h | h
        · simp at h
          exact absurd h.1.symm hq
        · exact h

theorem ptLookup_eq_none_iff {pt : PageTable} {p : Int} :
    ptLookup pt p = none ↔ p ∉ pt.map Prod.fst := by
  induction pt with
  | nil => simp [ptLookup]
  | cons e rest ih =>
    rcases e with ⟨q, g⟩
    rw [ptLookup_cons]
    by_cases hq : q = p
    · subst hq
      simp
    · rw [if_neg hq, ih]
      simp only [List.map_cons]
      constructor
      · intro h hmem
        rcases List.mem_cons.mp hmem with h1 | h1
        · exact hq h1.symm
        · exact h h1
      · intro h hmem
        exact h (List.mem_cons.mpr (Or.inr hmem))

theorem mem_ptErase {pt : PageTable} {p q : Int} {f : Int} :
    (q, f) ∈ ptErase pt p ↔ (q, f) ∈ pt ∧ q ≠ p := by
  unfold ptErase
  simp [List.mem_filter]

theorem ptErase_sublist (pt : PageTable) (p : Int) :
    (ptErase pt p).Sublist pt :=
  List.filter_sublist pt

theorem ptErase_eq_self {pt : PageTable} {p : Int} (h : p ∉ pt.map Prod.fst) :
    ptErase pt p = pt := by
  unfold ptErase
  apply List.filter_eq_self.mpr
  intro e hm
  rcases e with ⟨q, f⟩
  simp only [bne_iff_ne, ne_eq, decide_eq_true_eq]
  intro hq
  exact h (List.mem_map.mpr ⟨(q, f), hm, by simp [hq]⟩)

theorem length_ptErase_add_one {pt : PageTable} (hnd : (pt.map Prod.fst).Nodup)
    {p : Int} (h : p ∈ pt.map Prod.fst) :
    (ptErase pt p).length + 1 = pt.length := by
  induction pt with
  | nil => simp at h
  | cons e rest ih =>
    rcases e with ⟨q, g⟩
    simp only [List.map_cons, List.nodup_cons] at hnd
    rw [ptErase_cons]
    by_cases hq : q = p
    · subst hq
      rw [if_pos rfl, ptErase_eq_self hnd.1]
      simp
    · rw [if_neg hq]
      have hmem : p ∈ rest.map Prod.fst := by
        rcases List.mem_map.mp h with ⟨⟨a, b⟩, hab, ha⟩
        simp at ha
        rcases List.mem_cons.mp hab with hab | hab
        · injection hab with h1 h2
          exact absurd (h1.symm.trans ha) hq
        · exact List.mem_map.mpr ⟨(a, b), hab, ha⟩
      simp only [List.length_cons]
      have := ih hnd.2 hmem
      omega

theorem ptErase_keys_nodup {pt : PageTable} (hnd : (pt.map Prod.fst).Nodup)
    (p : Int) : ((ptErase pt p).map Prod.fst).Nodup :=
  ((ptErase_sublist pt p).map Prod.fst).nodup hnd

theorem ptErase_vals_nodup {pt : PageTable} (hnd : (pt.map Prod.snd).Nodup)
    (p : Int) : ((ptErase pt p).map Prod.snd).Nodup :=
  ((ptErase_sublist pt p).map Prod.snd).nodup hnd

theorem notMem_ptErase_keys (pt : PageTable) (p : Int) :
    p ∉ (ptErase pt p).map Prod.fst := by
  intro h
  rcases List.mem_map.mp h with ⟨⟨q, f⟩, hm, hq⟩
  simp at hq
  subst hq
  exact (mem_ptErase.mp hm).2 rfl

theorem mem_vals_ptErase {pt : PageTable} {p : Int} {f : Int}
    (h : f ∈ (ptErase pt p).map Prod.snd) : f ∈ pt.map Prod.snd :=
  ((ptErase_sublist pt p).map Prod.snd).mem h

theorem mem_ptInsert {pt : PageTable} {p q : Int} {f f0 : Int} :
    (q, f) ∈ ptInsert pt p f0 ↔ (q = p ∧ f = f0) ∨ ((q, f) ∈ pt ∧ q ≠ p) := by
  unfold ptInsert
  simp [mem_ptErase]

theorem ptInsert_keys_nodup {pt : PageTable} (hnd : (pt.map Prod.fst).Nodup)
    (p : Int) (f : Int) : ((ptInsert pt p f).map Prod.fst).Nodup := by
  unfold ptInsert
  simp only [List.map_cons, List.nodup_cons]
  exact ⟨notMem_ptErase_keys pt p, ptErase_keys_nodup hnd p⟩

theorem length_ptInsert (pt : PageTable) (p : Int) (f : Int) :
    (ptInsert pt p f).length = (ptErase pt p).length + 1 := by
  simp [ptInsert]

theorem mem_Unpin {r : LRUReplacer} {f x : Int} :
    x ∈ (r.Unpin f).unpinList ↔ x = f ∨ x ∈ r.unpinList := by
  unfold LRUReplacer.Unpin
  split
  · constructor
    · intro h
      exact Or.inr h
    · rintro (rfl | h)
      · assumption
      · exact h
  · simp

theorem nodup_Unpin {r : LRUReplacer} (hnd : r.unpinList.Nodup) (f : Int) :
    (r.Unpin f).unpinList.Nodup := by
  unfold LRUReplacer.Unpin
  split
  · exact hnd
  · simp only [List.nodup_cons]
    exact ⟨by assumption, hnd⟩

theorem mem_Pin {r : LRUReplacer} (hnd : r.unpinList.Nodup) {f x : Int} :
    x ∈ (r.Pin f).unpinList ↔ x ∈ r.unpinList ∧ x ≠ f := by
  unfold LRUReplacer.Pin
  split
  · rw [List.Nodup.mem_erase_iff hnd]
    tauto
  · constructor
    · intro h
      refine ⟨h, ?_⟩
      rintro rfl
      exact absurd h (by assumption)
    · exact fun h => h.1

theorem nodup_Pin {r : LRUReplacer} (hnd : r.unpinList.Nodup) (f : Int) :
    (r.Pin f).unpinList.Nodup := by
  unfold LRUReplacer.Pin
  split
  · exact hnd.erase f
  · exact hnd

theorem Victim_some {r : LRUReplacer} {f : Int} {r' : LRUReplacer}
    (h : r.Victim = (some f, r')) :
    r.unpinList.getLast? = some f ∧ f ∈ r.unpinList ∧
      r'.unpinList = r.unpinList.dropLast := by
  unfold LRUReplacer.Victim at h
  rcases hl : r.unpinList.getLast? with _ | g
  · rw [hl] at h
    simp at h
  · rw [hl] at h
    have h1 : some g = some f := congrArg Prod.fst h
    have h2 : ({ r with unpinList := r.unpinList.dropLast } : LRUReplacer) = r' :=
      congrArg Prod.snd h
    injection h1 with h1
    rw [h1] at hl
    subst h2
    have hne : r.unpinList ≠ [] := by
      intro he
      rw [he] at hl
      simp at hl
    have hmem : f ∈ r.unpinList := by
      have := List.getLast?_eq_getLast_of_ne_nil hne
      rw [hl] at this
      simp at this
      rw [this]
      exact List.getLast_mem hne
    exact ⟨by rw [h1], hmem, rfl⟩

theorem Victim_some_notMem {r : LRUReplacer} (hnd : r.unpinList.Nodup)
    {f : Int} {r' : LRUReplacer} (h : r.Victim = (some f, r')) :
    f ∉ r'.unpinList := by
  obtain ⟨hl, hmem, hdrop⟩ := Victim_some h
  have hne : r.unpinList ≠ [] := by
    intro he
    rw [he] at hl
    simp at hl
  have hlast : r.unpinList.getLast hne = f := by
    have := List.getLast?_eq_getLast_of_ne_nil hne
    rw [hl] at this
    simp at this
    exact this.symm
  intro hx
  rw [hdrop] at hx
  have hsplit := List.dropLast_append_getLast hne
  rw [hlast] at hsplit
  rw [← hsplit] at hnd
  rcases List.nodup_append.mp hnd with ⟨-, -, hdisj⟩
  exact hdisj hx (by simp)

theorem Victim_dropLast_mem {r : LRUReplacer} {f : Int} {r' : LRUReplacer}
    (h : r.Victim = (some f, r')) {x : Int} (hx : x ∈ r'.unpinList) :
    x ∈ r.unpinList := by
  rw [(Victim_some h).2.2] at hx
  exact List.mem_of_mem_dropLast hx

theorem Victim_nodup {r : LRUReplacer} (hnd : r.unpinList.Nodup)
    {f : Int} {r' : LRUReplacer} (h : r.Victim = (some f, r')) :
    r'.unpinList.Nodup := by
  rw [(Victim_some h).2.2]
  exact (List.dropLast_sublist r.unpinList).nodup hnd

theorem Victim_mem_dropLast {r : LRUReplacer} {f : Int} {r' : LRUReplacer}
    (h : r.Victim = (some f, r')) {x : Int} (hx : x ∈ r.unpinList)
    (hne : x ≠ f) : x ∈ r'.unpinList := by
  obtain ⟨hl, hmem, hdrop⟩ := Victim_some h
  have hnil : r.unpinList ≠ [] := by
    intro he
    rw [he] at hl
    simp at hl
  have hlast : r.unpinList.getLast hnil = f := by
    have := List.getLast?_eq_getLast_of_ne_nil hnil
    rw [hl] at this
    simp at this
    exact this.symm
  have hsplit := List.dropLast_append_getLast hnil
  rw [hlast] at hsplit
  rw [hdrop]
  rw [← hsplit] at hx
  rcases List.mem_append.mp hx with hx | hx
  · exact hx
  · simp at hx
    exact absurd hx hne

theorem Victim_size_pos {r : LRUReplacer} (h : r.Size ≠ 0) :
    ∃ f r', r.Victim = (some f, r') := by
  unfold LRUReplacer.Victim
  rcases hl : r.unpinList.getLast? with _ | g
  · have := List.getLast?_eq_none_iff.mp hl
    exact absurd (by simp [LRUReplacer.Size, this]) h
  · exact ⟨g, _, rfl⟩

/-! ### The buffer-pool state invariant (C2) -/

/-- Well-formedness of a buffer-pool state: the page table and free list
partition the frames, the replacer holds exactly the resident unpinned
frames, frame metadata is consistent with the page table, and all resident
page ids have been allocated. -/
structure BPInv (bp : BufferPool) : Prop where
  keysND : (bp.pageTable.map Prod.fst).Nodup
  valsND : (bp.pageTable.map Prod.snd).Nodup
  flND : bp.freeList.Nodup
  repND : bp.replacer.unpinList.Nodup
  count : bp.pageTable.length + bp.freeList.length = bp.poolSize
  valsRange : ∀ p f, (p, f) ∈ bp.pageTable → 0 ≤ f ∧ f < (bp.poolSize : Int)
  flRange : ∀ f ∈ bp.freeList, 0 ≤ f ∧ f < (bp.poolSize : Int)
  flPT : ∀ f ∈ bp.freeList, f ∉ bp.pageTable.map Prod.snd
  cover : ∀ f : Int, 0 ≤ f → f < (bp.poolSize : Int) →
    f ∈ bp.freeList ∨ f ∈ bp.pageTable.map Prod.snd
  framePid : ∀ p f, (p, f) ∈ bp.pageTable → (bp.pages f).pageId = p
  freeFrame : ∀ f ∈ bp.freeList,
    (bp.pages f).pageId = INVALID_PAGE_ID ∧ (bp.pages f).pinCount = 0
  pinNN : ∀ p f, (p, f) ∈ bp.pageTable → 0 ≤ (bp.pages f).pinCount
  repPT : ∀ f ∈ bp.replacer.unpinList, f ∈ bp.pageTable.map Prod.snd
  repPin : ∀ f ∈ bp.replacer.unpinList, (bp.pages f).pinCount = 0
  ptRep : ∀ p f, (p, f) ∈ bp.pageTable → (bp.pages f).pinCount = 0 →
    f ∈ bp.replacer.unpinList
  keysLt : ∀ p ∈ bp.pageTable.map Prod.fst, p < bp.nextPageId

theorem BPInv_init (n : Nat) (disk0 : Int → PageData) :
    BPInv (initBufferPool n disk0) := by
  refine ⟨?_, ?_, ?_, ?_, ?_, ?_, ?_, ?_, ?_, ?_, ?_, ?_, ?_, ?_, ?_, ?_⟩
  · simp [initBufferPool]
  · simp [initBufferPool]
  · simp only [initBufferPool]
    exact List.Nodup.map (fun a b h => Int.ofNat.inj h) (List.nodup_range n)
  · simp [initBufferPool]
  · simp [initBufferPool]
  · simp [initBufferPool]
  · simp only [initBufferPool]
    intro f hf
    rcases List.mem_map.mp hf with ⟨i, hi, rfl⟩
    simp at hi
    exact ⟨Int.ofNat_nonneg i, Int.ofNat_lt.mpr hi⟩
  · simp [initBufferPool]
  · simp only [initBufferPool]
    intro f h0 hn
    left
    refine List.mem_map.mpr ⟨f.toNat, List.mem_range.mpr ?_, ?_⟩
    · omega
    · show ((f.toNat : Nat) : Int) = f
      omega
  · simp [initBufferPool]
  · simp [initBufferPool, INVALID_PAGE_ID]
  · simp [initBufferPool]
  · simp [initBufferPool]
  · simp [initBufferPool]
  · simp [initBufferPool]
  · simp [initBufferPool]

theorem upd_same {β : Type} (g : Int → β) (i : Int) (v : β) : upd g i v i = v := by
  simp [upd]

theorem upd_ne {β : Type} (g : Int → β) {i j : Int} (v : β) (h : j ≠ i) :
    upd g i v j = g j := by
  simp [upd, h]

theorem mem_vals_iff {pt : PageTable} {f : Int} :
    f ∈ pt.map Prod.snd ↔ ∃ p, (p, f) ∈ pt := by
  constructor
  · intro h
    rcases List.mem_map.mp h with ⟨⟨p, g⟩, hm, hg⟩
    simp at hg
    subst hg
    exact ⟨p, hm⟩
  · rintro ⟨p, hm⟩
    exact List.mem_map.mpr ⟨(p, f), hm, rfl⟩

theorem mem_keys_iff {pt : PageTable} {p : Int} :
    p ∈ pt.map Prod.fst ↔ ∃ f, (p, f) ∈ pt := by
  constructor
  · intro h
    rcases List.mem_map.mp h with ⟨⟨q, g⟩, hm, hg⟩
    simp at hg
    subst hg
    exact ⟨g, hm⟩
  · rintro ⟨f, hm⟩
    exact List.mem_map.mpr ⟨(p, f), hm, rfl⟩

theorem vals_unique {pt : PageTable} (hnd : (pt.map Prod.snd).Nodup)
    {p q f : Int} (h1 : (p, f) ∈ pt) (h2 : (q, f) ∈ pt) : p = q := by
  induction pt with
  | nil => simp at h1
  | cons e rest ih =>
    rcases e with ⟨a, b⟩
    simp only [List.map_cons, List.nodup_cons] at hnd
    rcases List.mem_cons.mp h1 with h1 | h1 <;> rcases List.mem_cons.mp h2 with h2 | h2
    · injection h1 with h1a h1b
      injection h2 with h2a h2b
      rw [h1a, h2a]
    · injection h1 with h1a h1b
      exact absurd (mem_vals_iff.mpr ⟨q, h2⟩) (h1b ▸ hnd.1)
    · injection h2 with h2a h2b
      exact absurd (mem_vals_iff.mpr ⟨p, h1⟩) (h2b ▸ hnd.1)
    · exact ih hnd.2 h1 h2

theorem keys_unique {pt : PageTable} (hnd : (pt.map Prod.fst).Nodup)
    {p f g : Int} (h1 : (p, f) ∈ pt) (h2 : (p, g) ∈ pt) : f = g := by
  induction pt with
  | nil => simp at h1
  | cons e rest ih =>
    rcases e with ⟨a, b⟩
    simp only [List.map_cons, List.nodup_cons] at hnd
    rcases List.mem_cons.mp h1 with h1 | h1 <;> rcases List.mem_cons.mp h2 with h2 | h2
    · injection h1 with h1a h1b
      injection h2 with h2a h2b
      rw [h1b, h2b]
    · injection h1 with h1a h1b
      exact absurd (mem_keys_iff.mpr ⟨g, h2⟩) (h1a ▸ hnd.1)
    · injection h2 with h2a h2b
      exact absurd (mem_keys_iff.mpr ⟨f, h1⟩) (h2a ▸ hnd.1)
    · exact ih hnd.2 h1 h2

/-- `BPInv` does not mention the disk contents. -/
theorem BPInv_setDisk {bp : BufferPool} (h : BPInv bp) (d : Int → PageData) :
    BPInv { bp with disk := d } :=
  ⟨h.keysND, h.valsND, h.flND, h.repND, h.count, h.valsRange, h.flRange, h.flPT,
   h.cover, h.framePid, h.freeFrame, h.pinNN, h.repPT, h.repPin, h.ptRep, h.keysLt⟩

/-- `BPInv` only reads the `pageId` and `pinCount` fields of frames, so any
frame-array change preserving them (data writes, dirty-flag changes)
preserves the invariant. -/
theorem BPInv_pages_eq {bp : BufferPool} (h : BPInv bp) (pg : Int → Frame)
    (hpid : ∀ x, (pg x).pageId = (bp.pages x).pageId)
    (hpin : ∀ x, (pg x).pinCount = (bp.pages x).pinCount) :
    BPInv { bp with pages := pg } := by
  refine ⟨h.keysND, h.valsND, h.flND, h.repND, h.count, h.valsRange, h.flRange,
    h.flPT, h.cover, ?_, ?_, ?_, h.repPT, ?_, ?_, h.keysLt⟩
  · intro p f hm
    rw [hpid]
    exact h.framePid p f hm
  · intro f hm
    rw [hpid, hpin]
    exact h.freeFrame f hm
  · intro p f hm
    rw [hpin]
    exact h.pinNN p f hm
  · intro f hm
    rw [hpin]
    exact h.repPin f hm
  · intro p f hm hz
    rw [hpin] at hz
    exact h.ptRep p f hm hz

/-- Combined variant of `BPInv_pages_eq` that also replaces the disk. -/
theorem BPInv_pages_disk_eq {bp : BufferPool} (h : BPInv bp) (pg : Int → Frame)
    (d : Int → PageData)
    (hpid : ∀ x, (pg x).pageId = (bp.pages x).pageId)
    (hpin : ∀ x, (pg x).pinCount = (bp.pages x).pinCount) :
    BPInv { bp with pages := pg, disk := d } := by
  refine ⟨h.keysND, h.valsND, h.flND, h.repND, h.count, h.valsRange, h.flRange,
    h.flPT, h.cover, ?_, ?_, ?_, h.repPT, ?_, ?_, h.keysLt⟩
  · intro p f hm
    rw [hpid]
    exact h.framePid p f hm
  · intro f hm
    rw [hpid, hpin]
    exact h.freeFrame f hm
  · intro p f hm
    rw [hpin]
    exact h.pinNN p f hm
  · intro f hm
    rw [hpin]
    exact h.repPin f hm
  · intro p f hm hz
    rw [hpin] at hz
    exact h.ptRep p f hm hz

/-- Claiming a frame from the free list (the first branch of `InitNewPage`)
preserves the invariant, provided the page id is fresh and allocated. -/
theorem BPInv_claim_free {bp : BufferPool} (hinv : BPInv bp) {pid f0 : Int}
    {rest : List Int} (hpid : pid ∉ bp.pageTable.map Prod.fst)
    (hlt : pid < bp.nextPageId) (hfl : bp.freeList = f0 :: rest) :
    BPInv { bp with freeList := rest,
                    pages := upd bp.pages f0 ⟨pid, 1, false, zeroData⟩,
                    pageTable := ptInsert bp.pageTable pid f0 } := by
  have hpt' : ptInsert bp.pageTable pid f0 = (pid, f0) :: bp.pageTable := by
    unfold ptInsert
    rw [ptErase_eq_self hpid]
  have hf0 : f0 ∈ bp.freeList := by
    rw [hfl]
    exact List.mem_cons_self _ _
  have hf0nv : f0 ∉ bp.pageTable.map Prod.snd := hinv.flPT f0 hf0
  have hflnd : f0 ∉ rest ∧ rest.Nodup := by
    have := hinv.flND
    rw [hfl] at this
    simpa using this
  have hgne : ∀ q g, (q, g) ∈ bp.pageTable → g ≠ f0 := by
    intro q g hm he
    exact hf0nv (he ▸ mem_vals_iff.mpr ⟨q, hm⟩)
  refine ⟨?_, ?_, ?_, ?_, ?_, ?_, ?_, ?_, ?_, ?_, ?_, ?_, ?_, ?_, ?_, ?_⟩
  · show ((ptInsert bp.pageTable pid f0).map Prod.fst).Nodup
    rw [hpt']
    simp only [List.map_cons, List.nodup_cons]
    exact ⟨hpid, hinv.keysND⟩
  · show ((ptInsert bp.pageTable pid f0).map Prod.snd).Nodup
    rw [hpt']
    simp only [List.map_cons, List.nodup_cons]
    exact ⟨hf0nv, hinv.valsND⟩
  · exact hflnd.2
  · exact hinv.repND
  · show (ptInsert bp.pageTable pid f0).length + rest.length = bp.poolSize
    rw [hpt']
    have := hinv.count
    rw [hfl] at this
    simp only [List.length_cons] at this ⊢
    omega
  · intro q g hm
    rw [hpt'] at hm
    rcases List.mem_cons.mp hm with hm | hm
    · injection hm with h1 h2
      rw [h2]
      exact hinv.flRange f0 hf0
    · exact hinv.valsRange q g hm
  · intro g hg
    exact hinv.flRange g (by rw [hfl]; exact List.mem_cons.mpr (Or.inr hg))
  · intro g hg
    rw [hpt']
    simp only [List.map_cons, List.mem_cons]
    rintro (h | h)
    · exact hflnd.1 (h ▸ hg)
    · exact hinv.flPT g (by rw [hfl]; exact List.mem_cons.mpr (Or.inr hg)) h
  · intro g h0 hn
    rcases hinv.cover g h0 hn with hc | hc
    · rw [hfl] at hc
      rcases List.mem_cons.mp hc with hc | hc
      · right
        rw [hpt']
        simp [hc]
      · exact Or.inl hc
    · right
      rw [hpt']
      simp only [List.map_cons, List.mem_cons]
      exact Or.inr hc
  · intro q g hm
    dsimp only at hm ⊢
    rw [hpt'] at hm
    rcases List.mem_cons.mp hm with hm | hm
    · injection hm with h1 h2
      rw [h1, h2, upd_same]
    · rw [upd_ne _ _ (hgne q g hm)]
      exact hinv.framePid q g hm
  · intro g hg
    dsimp only at hg ⊢
    have hne : g ≠ f0 := by
      intro he
      exact hflnd.1 (he ▸ hg)
    rw [upd_ne _ _ hne]
    exact hinv.freeFrame g (by rw [hfl]; exact List.mem_cons.mpr (Or.inr hg))
  · intro q g hm
    dsimp only at hm ⊢
    rw [hpt'] at hm
    rcases List.mem_cons.mp hm with hm | hm
    · injection hm with h1 h2
      rw [h2, upd_same]
      norm_num
    · rw [upd_ne _ _ (hgne q g hm)]
      exact hinv.pinNN q g hm
  · intro g hg
    rw [hpt']
    simp only [List.map_cons, List.mem_cons]
    exact Or.inr (hinv.repPT g hg)
  · intro g hg
    dsimp only at hg ⊢
    have hgv : g ∈ bp.pageTable.map Prod.snd := hinv.repPT g hg
    have : g ≠ f0 := fun he => hf0nv (he ▸ hgv)
    rw [upd_ne _ _ this]
    exact hinv.repPin g hg
  · intro q g hm hz
    dsimp only at hm hz ⊢
    rw [hpt'] at hm
    rcases List.mem_cons.mp hm with hm | hm
    · injection hm with h1 h2
      rw [h2, upd_same] at hz
      norm_num at hz
    · rw [upd_ne _ _ (hgne q g hm)] at hz
      exact hinv.ptRep q g hm hz
  · intro q hq
    rw [hpt'] at hq
    simp only [List.map_cons, List.mem_cons] at hq
    rcases hq with hq | hq
    · exact hq ▸ hlt
    · exact hinv.keysLt q hq

/-- Evicting the replacer's victim (the second branch of `InitNewPage`)
preserves the invariant: the victim's old page-table entry is replaced by
the new page's entry on the same frame, and the frame leaves the
replacer. -/
theorem BPInv_claim_victim {bp : BufferPool} (hinv : BPInv bp) {pid f0 : Int}
    {rep' : LRUReplacer} (hpid : pid ∉ bp.pageTable.map Prod.fst)
    (hlt : pid < bp.nextPageId) (hv : bp.replacer.Victim = (some f0, rep'))
    (hfl : bp.freeList = []) (d : Int → PageData) :
    BPInv { bp with replacer := rep',
                    pageTable := ptInsert (ptErase bp.pageTable (bp.pages f0).pageId) pid f0,
                    disk := d,
                    freeList := [],
                    pages := upd bp.pages f0 ⟨pid, 1, false, zeroData⟩ } := by
  have hf0rep : f0 ∈ bp.replacer.unpinList := (Victim_some hv).2.1
  have hf0v : f0 ∈ bp.pageTable.map Prod.snd := hinv.repPT f0 hf0rep
  have hf0pin : (bp.pages f0).pinCount = 0 := hinv.repPin f0 hf0rep
  obtain ⟨vpid, hvm⟩ := mem_vals_iff.mp hf0v
  have hvpid : (bp.pages f0).pageId = vpid := hinv.framePid vpid f0 hvm
  rw [hvpid]
  have hkmem : vpid ∈ bp.pageTable.map Prod.fst := mem_keys_iff.mpr ⟨f0, hvm⟩
  have hpid2 : pid ∉ (ptErase bp.pageTable vpid).map Prod.fst := by
    intro h
    rcases List.mem_map.mp h with ⟨⟨q, g⟩, hm, hq⟩
    exact hpid (List.mem_map.mpr ⟨(q, g), (mem_ptErase.mp hm).1, hq⟩)
  have hpt' : ptInsert (ptErase bp.pageTable vpid) pid f0
      = (pid, f0) :: ptErase bp.pageTable vpid := by
    unfold ptInsert
    rw [ptErase_eq_self hpid2]
  have hAnv : f0 ∉ (ptErase bp.pageTable vpid).map Prod.snd := by
    intro h
    rcases mem_vals_iff.mp h with ⟨q, hq⟩
    exact (mem_ptErase.mp hq).2 (vals_unique hinv.valsND (mem_ptErase.mp hq).1 hvm)
  have hgne : ∀ q g, (q, g) ∈ ptErase bp.pageTable vpid → g ≠ f0 := by
    intro q g hm he
    exact hAnv (he ▸ mem_vals_iff.mpr ⟨q, hm⟩)
  have hf0rep' : f0 ∉ rep'.unpinList := Victim_some_notMem hinv.repND hv
  have htail : ∀ {q g : Int}, (q, g) ∈ bp.pageTable → g ≠ f0 →
      (q, g) ∈ ptErase bp.pageTable vpid := by
    intro q g hq hne
    refine mem_ptErase.mpr ⟨hq, ?_⟩
    intro he
    exact hne (keys_unique hinv.keysND (he ▸ hq) hvm)
  refine ⟨?_, ?_, ?_, ?_, ?_, ?_, ?_, ?_, ?_, ?_, ?_, ?_, ?_, ?_, ?_, ?_⟩
  · show ((ptInsert (ptErase bp.pageTable vpid) pid f0).map Prod.fst).Nodup
    rw [hpt']
    simp only [List.map_cons, List.nodup_cons]
    exact ⟨hpid2, ptErase_keys_nodup hinv.keysND vpid⟩
  · show ((ptInsert (ptErase bp.pageTable vpid) pid f0).map Prod.snd).Nodup
    rw [hpt']
    simp only [List.map_cons, List.nodup_cons]
    exact ⟨hAnv, ptErase_vals_nodup hinv.valsND vpid⟩
  · simp
  · exact Victim_nodup hinv.repND hv
  · show (ptInsert (ptErase bp.pageTable vpid) pid f0).length + ([] : List Int).length
        = bp.poolSize
    rw [hpt']
    have h1 := length_ptErase_add_one hinv.keysND hkmem
    have h2 := hinv.count
    rw [hfl] at h2
    simp only [List.length_cons, List.length_nil] at h2 ⊢
    omega
  · intro q g hm
    dsimp only at hm ⊢
    rw [hpt'] at hm
    rcases List.mem_cons.mp hm with hm | hm
    · injection hm with h1 h2
      rw [h2]
      exact hinv.valsRange vpid f0 hvm
    · exact hinv.valsRange q g (mem_ptErase.mp hm).1
  · intro g hg
    simp at hg
  · intro g hg
    simp at hg
  · intro g h0 hn
    dsimp only
    rcases hinv.cover g h0 hn with hc | hc
    · rw [hfl] at hc
      simp at hc
    · right
      rw [hpt']
      obtain ⟨q, hq⟩ := mem_vals_iff.mp hc
      by_cases hgf : g = f0
      · simp [hgf]
      · simp only [List.map_cons, List.mem_cons]
        exact Or.inr (mem_vals_iff.mpr ⟨q, htail hq hgf⟩)
  · intro q g hm
    dsimp only at hm ⊢
    rw [hpt'] at hm
    rcases List.mem_cons.mp hm with hm | hm
    · injection hm with h1 h2
      rw [h1, h2, upd_same]
    · rw [upd_ne _ _ (hgne q g hm)]
      exact hinv.framePid q g (mem_ptErase.mp hm).1
  · intro g hg
    simp at hg
  · intro q g hm
    dsimp only at hm ⊢
    rw [hpt'] at hm
    rcases List.mem_cons.mp hm with hm | hm
    · injection hm with h1 h2
      rw [h2, upd_same]
      norm_num
    · rw [upd_ne _ _ (hgne q g hm)]
      exact hinv.pinNN q g (mem_ptErase.mp hm).1
  · intro g hg
    dsimp only at hg ⊢
    have hgrep : g ∈ bp.replacer.unpinList := Victim_dropLast_mem hv hg
    have hgf : g ≠ f0 := fun he => hf0rep' (he ▸ hg)
    obtain ⟨q, hq⟩ := mem_vals_iff.mp (hinv.repPT g hgrep)
    rw [hpt']
    simp only [List.map_cons, List.mem_cons]
    exact Or.inr (mem_vals_iff.mpr ⟨q, htail hq hgf⟩)
  · intro g hg
    dsimp only at hg ⊢
    have hgrep : g ∈ bp.replacer.unpinList := Victim_dropLast_mem hv hg
    have hgf : g ≠ f0 := fun he => hf0rep' (he ▸ hg)
    rw [upd_ne _ _ hgf]
    exact hinv.repPin g hgrep
  · intro q g hm hz
    dsimp only at hm hz ⊢
    rw [hpt'] at hm
    rcases List.mem_cons.mp hm with hm | hm
    · injection hm with h1 h2
      rw [h2, upd_same] at hz
      norm_num at hz
    · have hgf := hgne q g hm
      rw [upd_ne _ _ hgf] at hz
      have hgrep := hinv.ptRep q g (mem_ptErase.mp hm).1 hz
      exact Victim_mem_dropLast hv hgrep hgf
  · intro q hq
    dsimp only at hq
    rw [hpt'] at hq
    simp only [List.map_cons, List.mem_cons] at hq
    rcases hq with hq | hq
    · exact hq ▸ hlt
    · obtain ⟨g, hg⟩ := mem_keys_iff.mp hq
      exact hinv.keysLt q (mem_keys_iff.mpr ⟨g, (mem_ptErase.mp hg).1⟩)

theorem BPInv_InitNewPage {bp : BufferPool} (hinv : BPInv bp) {pid : Int}
    (hpid : pid ∉ bp.pageTable.map Prod.fst) (hlt : pid < bp.nextPageId)
    (hguard : ¬(bp.freeList.isEmpty && bp.replacer.Size == 0) = true) :
    BPInv (InitNewPage bp pid).2 := by
  rcases hfl : bp.freeList with _ | ⟨f0, rest⟩
  · have hsz : bp.replacer.Size ≠ 0 := by
      intro h
      exact hguard (by simp [hfl, h, LRUReplacer.Size] at h ⊢; simp [h])
    obtain ⟨f0, rep', hv⟩ := Victim_size_pos hsz
    unfold InitNewPage
    rw [hfl, hv]
    dsimp only
    exact BPInv_claim_victim hinv hpid hlt hv hfl _
  · unfold InitNewPage
    rw [hfl]
    dsimp only
    exact BPInv_claim_free hinv hpid hlt hfl

/-- A `FetchPage` hit on a frame with pin count 0 removes the frame from
the replacer and increments the pin count; the invariant is preserved. -/
theorem BPInv_fetch_hit_zero {bp : BufferPool} (hinv : BPInv bp) {pid f : Int}
    (hm : (pid, f) ∈ bp.pageTable) :
    BPInv { bp with replacer := bp.replacer.Pin f,
                    pages := upd bp.pages f
                      { bp.pages f with pinCount := (bp.pages f).pinCount + 1 } } := by
  have hfv : f ∈ bp.pageTable.map Prod.snd := mem_vals_iff.mpr ⟨pid, hm⟩
  refine ⟨hinv.keysND, hinv.valsND, hinv.flND, nodup_Pin hinv.repND f, hinv.count,
    hinv.valsRange, hinv.flRange, hinv.flPT, hinv.cover, ?_, ?_, ?_, ?_, ?_, ?_,
    hinv.keysLt⟩
  · intro q g hq
    dsimp only
    by_cases hgf : g = f
    · have hq' : (q, f) ∈ bp.pageTable := hgf ▸ hq
      rw [hgf, upd_same]
      show (bp.pages f).pageId = q
      exact hinv.framePid q f hq'
    · rw [upd_ne _ _ hgf]
      exact hinv.framePid q g hq
  · intro g hg
    dsimp only
    have hgf : g ≠ f := fun he => hinv.flPT g hg (he ▸ hfv)
    rw [upd_ne _ _ hgf]
    exact hinv.freeFrame g hg
  · intro q g hq
    dsimp only
    by_cases hgf : g = f
    · have hnn := hinv.pinNN q f (hgf ▸ hq : (q, f) ∈ bp.pageTable)
      rw [hgf, upd_same]
      show 0 ≤ (bp.pages f).pinCount + 1
      omega
    · rw [upd_ne _ _ hgf]
      exact hinv.pinNN q g hq
  · intro g hg
    dsimp only at hg
    exact hinv.repPT g ((mem_Pin hinv.repND).mp hg).1
  · intro g hg
    dsimp only at hg ⊢
    obtain ⟨hgr, hgf⟩ := (mem_Pin hinv.repND).mp hg
    rw [upd_ne _ _ hgf]
    exact hinv.repPin g hgr
  · intro q g hq hz
    dsimp only at hz ⊢
    by_cases hgf : g = f
    · rw [hgf, upd_same] at hz
      have hz' : (bp.pages f).pinCount + 1 = 0 := hz
      have hnn := hinv.pinNN q f (hgf ▸ hq : (q, f) ∈ bp.pageTable)
      omega
    · rw [upd_ne _ _ hgf] at hz
      exact (mem_Pin hinv.repND).mpr ⟨hinv.ptRep q g hq hz, hgf⟩

/-- A `FetchPage` hit on an already pinned frame only increments the pin
count; the invariant is preserved. -/
theorem BPInv_fetch_hit_pos {bp : BufferPool} (hinv : BPInv bp) {pid f : Int}
    (hm : (pid, f) ∈ bp.pageTable) (hpin : ¬ (bp.pages f).pinCount = 0) :
    BPInv { bp with pages := upd bp.pages f
                      { bp.pages f with pinCount := (bp.pages f).pinCount + 1 } } := by
  have hfv : f ∈ bp.pageTable.map Prod.snd := mem_vals_iff.mpr ⟨pid, hm⟩
  have hfnr : f ∉ bp.replacer.unpinList := fun hr => hpin (hinv.repPin f hr)
  refine ⟨hinv.keysND, hinv.valsND, hinv.flND, hinv.repND, hinv.count,
    hinv.valsRange, hinv.flRange, hinv.flPT, hinv.cover, ?_, ?_, ?_, hinv.repPT,
    ?_, ?_, hinv.keysLt⟩
  · intro q g hq
    dsimp only
    by_cases hgf : g = f
    · have hq' : (q, f) ∈ bp.pageTable := hgf ▸ hq
      rw [hgf, upd_same]
      show (bp.pages f).pageId = q
      exact hinv.framePid q f hq'
    · rw [upd_ne _ _ hgf]
      exact hinv.framePid q g hq
  · intro g hg
    dsimp only
    have hgf : g ≠ f := fun he => hinv.flPT g hg (he ▸ hfv)
    rw [upd_ne _ _ hgf]
    exact hinv.freeFrame g hg
  · intro q g hq
    dsimp only
    by_cases hgf : g = f
    · have hnn := hinv.pinNN q f (hgf ▸ hq : (q, f) ∈ bp.pageTable)
      rw [hgf, upd_same]
      show 0 ≤ (bp.pages f).pinCount + 1
      omega
    · rw [upd_ne _ _ hgf]
      exact hinv.pinNN q g hq
  · intro g hg
    dsimp only
    have hgf : g ≠ f := fun he => hfnr (he ▸ hg)
    rw [upd_ne _ _ hgf]
    exact hinv.repPin g hg
  · intro q g hq hz
    dsimp only at hz ⊢
    by_cases hgf : g = f
    · rw [hgf, upd_same] at hz
      have hz' : (bp.pages f).pinCount + 1 = 0 := hz
      have hnn := hinv.pinNN q f (hgf ▸ hq : (q, f) ∈ bp.pageTable)
      omega
    · rw [upd_ne _ _ hgf] at hz
      exact hinv.ptRep q g hq hz

theorem BPInv_fetch {bp : BufferPool} (hinv : BPInv bp) {pid : Int}
    (hlt : pid < bp.nextPageId) : BPInv (FetchPageImpl bp pid).2 := by
  unfold FetchPageImpl
  rcases hl : ptLookup bp.pageTable pid with _ | f
  · dsimp only
    split
    · exact hinv
    next hguard =>
      dsimp only
      have hmain := BPInv_InitNewPage hinv (ptLookup_eq_none_iff.mp hl) hlt hguard
      refine BPInv_pages_eq hmain _ ?_ ?_
      · intro x
        by_cases hx : x = (InitNewPage bp pid).1
        · rw [hx, upd_same]
        · rw [upd_ne _ _ hx]
      · intro x
        by_cases hx : x = (InitNewPage bp pid).1
        · rw [hx, upd_same]
        · rw [upd_ne _ _ hx]
  · dsimp only
    have hm : (pid, f) ∈ bp.pageTable := (ptLookup_eq_some_iff hinv.keysND).mp hl
    split
    · exact BPInv_fetch_hit_zero hinv hm
    next hpin => exact BPInv_fetch_hit_pos hinv hm hpin

theorem BPInv_unpin {bp : BufferPool} (hinv : BPInv bp) (pid : Int) (d : Bool) :
    BPInv (UnpinPageImpl bp pid d).2 := by
  unfold UnpinPageImpl
  rcases hl : ptLookup bp.pageTable pid with _ | f
  · exact hinv
  · dsimp only
    have hm : (pid, f) ∈ bp.pageTable := (ptLookup_eq_some_iff hinv.keysND).mp hl
    have hfv : f ∈ bp.pageTable.map Prod.snd := mem_vals_iff.mpr ⟨pid, hm⟩
    split
    · exact hinv
    next hpos =>
      have hpos' : 0 < (bp.pages f).pinCount := by omega
      have hfnr : f ∉ bp.replacer.unpinList := by
        intro hr
        have := hinv.repPin f hr
        omega
      split
      next hzero =>
        dsimp only at hzero ⊢
        refine ⟨hinv.keysND, hinv.valsND, hinv.flND, nodup_Unpin hinv.repND f,
          hinv.count, hinv.valsRange, hinv.flRange, hinv.flPT, hinv.cover,
          ?_, ?_, ?_, ?_, ?_, ?_, hinv.keysLt⟩
        · intro q g hq
          dsimp only
          by_cases hgf : g = f
          · have hq' : (q, f) ∈ bp.pageTable := hgf ▸ hq
            rw [hgf, upd_same]
            show (bp.pages f).pageId = q
            exact hinv.framePid q f hq'
          · rw [upd_ne _ _ hgf]
            exact hinv.framePid q g hq
        · intro g hg
          dsimp only
          have hgf : g ≠ f := fun he => hinv.flPT g hg (he ▸ hfv)
          rw [upd_ne _ _ hgf]
          exact hinv.freeFrame g hg
        · intro q g hq
          dsimp only
          by_cases hgf : g = f
          · rw [hgf, upd_same]
            show 0 ≤ (bp.pages f).pinCount - 1
            omega
          · rw [upd_ne _ _ hgf]
            exact hinv.pinNN q g hq
        · intro g hg
          dsimp only at hg
          rcases mem_Unpin.mp hg with hg | hg
          · exact hg ▸ hfv
          · exact hinv.repPT g hg
        · intro g hg
          dsimp only at hg ⊢
          rcases mem_Unpin.mp hg with hg | hg
          · rw [hg, upd_same]
            show (bp.pages f).pinCount - 1 = 0
            exact hzero
          · have hgf : g ≠ f := fun he => hfnr (he ▸ hg)
            rw [upd_ne _ _ hgf]
            exact hinv.repPin g hg
        · intro q g hq hz
          dsimp only at hz ⊢
          by_cases hgf : g = f
          · exact mem_Unpin.mpr (Or.inl hgf)
          · rw [upd_ne _ _ hgf] at hz
            exact mem_Unpin.mpr (Or.inr (hinv.ptRep q g hq hz))
      next hnz =>
        dsimp only at hnz ⊢
        refine ⟨hinv.keysND, hinv.valsND, hinv.flND, hinv.repND, hinv.count,
          hinv.valsRange, hinv.flRange, hinv.flPT, hinv.cover, ?_, ?_, ?_,
          hinv.repPT, ?_, ?_, hinv.keysLt⟩
        · intro q g hq
          dsimp only
          by_cases hgf : g = f
          · have hq' : (q, f) ∈ bp.pageTable := hgf ▸ hq
            rw [hgf, upd_same]
            show (bp.pages f).pageId = q
            exact hinv.framePid q f hq'
          · rw [upd_ne _ _ hgf]
            exact hinv.framePid q g hq
        · intro g hg
          dsimp only
          have hgf : g ≠ f := fun he => hinv.flPT g hg (he ▸ hfv)
          rw [upd_ne _ _ hgf]
          exact hinv.freeFrame g hg
        · intro q g hq
          dsimp only
          by_cases hgf : g = f
          · rw [hgf, upd_same]
            show 0 ≤ (bp.pages f).pinCount - 1
            omega
          · rw [upd_ne _ _ hgf]
            exact hinv.pinNN q g hq
        · intro g hg
          dsimp only at hg ⊢
          have hgf : g ≠ f := fun he => hfnr (he ▸ hg)
          rw [upd_ne _ _ hgf]
          exact hinv.repPin g hg
        · intro q g hq hz
          dsimp only at hz ⊢
          by_cases hgf : g = f
          · exfalso
            rw [hgf, upd_same] at hz
            have hz' : (bp.pages f).pinCount - 1 = 0 := hz
            exact hnz hz'
          · rw [upd_ne _ _ hgf] at hz
            exact hinv.ptRep q g hq hz

theorem BPInv_flush {bp : BufferPool} (hinv : BPInv bp) (pid : Int) :
    BPInv (FlushPageImpl bp pid).2 := by
  unfold FlushPageImpl
  split
  · exact hinv
  · rcases hl : ptLookup bp.pageTable pid with _ | f
    · exact hinv
    · dsimp only
      split
      · refine BPInv_pages_disk_eq hinv _ _ ?_ ?_
        · intro x
          by_cases hx : x = f
          · rw [hx, upd_same]
          · rw [upd_ne _ _ hx]
        · intro x
          by_cases hx : x = f
          · rw [hx, upd_same]
          · rw [upd_ne _ _ hx]
      · exact hinv

theorem BPInv_new {bp : BufferPool} (hinv : BPInv bp) :
    BPInv (NewPageImpl bp).2 := by
  unfold NewPageImpl
  split
  · exact hinv
  next hguard =>
    dsimp only
    have hinv1 : BPInv { bp with nextPageId := bp.nextPageId + 1 } :=
      ⟨hinv.keysND, hinv.valsND, hinv.flND, hinv.repND, hinv.count,
       hinv.valsRange, hinv.flRange, hinv.flPT, hinv.cover, hinv.framePid,
       hinv.freeFrame, hinv.pinNN, hinv.repPT, hinv.repPin, hinv.ptRep,
       fun p hp => by
         have := hinv.keysLt p hp
         dsimp only
         omega⟩
    have hpid : bp.nextPageId ∉ bp.pageTable.map Prod.fst := by
      intro h
      exact absurd (hinv.keysLt _ h) (lt_irrefl _)
    have h2 := BPInv_InitNewPage hinv1 hpid (by dsimp only; omega) hguard
    exact BPInv_setDisk h2 _

theorem BPInv_delete {bp : BufferPool} (hinv : BPInv bp) (pid : Int) :
    BPInv (DeletePageImpl bp pid).2 := by
  unfold DeletePageImpl
  rcases hl : ptLookup bp.pageTable pid with _ | f
  · exact hinv
  · dsimp only
    split
    · exact hinv
    next hpin =>
      dsimp only
      have hm : (pid, f) ∈ bp.pageTable := (ptLookup_eq_some_iff hinv.keysND).mp hl
      have hfv : f ∈ bp.pageTable.map Prod.snd := mem_vals_iff.mpr ⟨pid, hm⟩
      have hkmem : pid ∈ bp.pageTable.map Prod.fst := mem_keys_iff.mpr ⟨f, hm⟩
      have hpz : (bp.pages f).pinCount = 0 := by
        have := hinv.pinNN pid f hm
        omega
      have hfrep : f ∈ bp.replacer.unpinList := hinv.ptRep pid f hm hpz
      have hffl : f ∉ bp.freeList := fun hc => hinv.flPT f hc hfv
      have hAnv : f ∉ (ptErase bp.pageTable pid).map Prod.snd := by
        intro h
        rcases mem_vals_iff.mp h with ⟨q, hq⟩
        exact (mem_ptErase.mp hq).2 (vals_unique hinv.valsND (mem_ptErase.mp hq).1 hm)
      have hgne : ∀ q g, (q, g) ∈ ptErase bp.pageTable pid → g ≠ f := by
        intro q g hq he
        exact hAnv (he ▸ mem_vals_iff.mpr ⟨q, hq⟩)
      have htail : ∀ {q g : Int}, (q, g) ∈ bp.pageTable → g ≠ f →
          (q, g) ∈ ptErase bp.pageTable pid := by
        intro q g hq hne
        refine mem_ptErase.mpr ⟨hq, ?_⟩
        intro he
        exact hne (keys_unique hinv.keysND (he ▸ hq) hm)
      refine ⟨?_, ?_, ?_, ?_, ?_, ?_, ?_, ?_, ?_, ?_, ?_, ?_, ?_, ?_, ?_, ?_⟩
      · exact ptErase_keys_nodup hinv.keysND pid
      · exact ptErase_vals_nodup hinv.valsND pid
      · dsimp only
        rw [List.nodup_append]
        refine ⟨hinv.flND, by simp, ?_⟩
        intro a ha hb
        simp at hb
        exact hffl (hb ▸ ha)
      · exact nodup_Pin hinv.repND f
      · show (ptErase bp.pageTable pid).length + (bp.freeList ++ [f]).length
            = bp.poolSize
        have h1 := length_ptErase_add_one hinv.keysND hkmem
        have h2 := hinv.count
        simp only [List.length_append, List.length_cons, List.length_nil]
        omega
      · intro q g hq
        exact hinv.valsRange q g (mem_ptErase.mp hq).1
      · intro g hg
        dsimp only at hg
        rcases List.mem_append.mp hg with hg | hg
        · exact hinv.flRange g hg
        · simp at hg
          exact hg ▸ hinv.valsRange pid f hm
      · intro g hg
        dsimp only at hg
        rcases List.mem_append.mp hg with hg | hg
        · intro hc
          exact hinv.flPT g hg (mem_vals_ptErase hc)
        · simp at hg
          exact hg ▸ hAnv
      · intro g h0 hn
        dsimp only
        rcases hinv.cover g h0 hn with hc | hc
        · exact Or.inl (List.mem_append.mpr (Or.inl hc))
        · obtain ⟨q, hq⟩ := mem_vals_iff.mp hc
          by_cases hgf : g = f
          · exact Or.inl (List.mem_append.mpr (Or.inr (by simp [hgf])))
          · exact Or.inr (mem_vals_iff.mpr ⟨q, htail hq hgf⟩)
      · intro q g hq
        dsimp only
        rw [upd_ne _ _ (hgne q g hq)]
        exact hinv.framePid q g (mem_ptErase.mp hq).1
      · intro g hg
        dsimp only at hg ⊢
        rcases List.mem_append.mp hg with hg | hg
        · have hgf : g ≠ f := fun he => hffl (he ▸ hg)
          rw [upd_ne _ _ hgf]
          exact hinv.freeFrame g hg
        · simp at hg
          rw [hg, upd_same]
          exact ⟨rfl, rfl⟩
      · intro q g hq
        dsimp only
        rw [upd_ne _ _ (hgne q g hq)]
        exact hinv.pinNN q g (mem_ptErase.mp hq).1
      · intro g hg
        dsimp only at hg
        obtain ⟨hgr, hgf⟩ := (mem_Pin hinv.repND).mp hg
        obtain ⟨q, hq⟩ := mem_vals_iff.mp (hinv.repPT g hgr)
        exact mem_vals_iff.mpr ⟨q, htail hq hgf⟩
      · intro g hg
        dsimp only at hg ⊢
        obtain ⟨hgr, hgf⟩ := (mem_Pin hinv.repND).mp hg
        rw [upd_ne _ _ hgf]
        exact hinv.repPin g hgr
      · intro q g hq hz
        dsimp only at hz ⊢
        have hgf := hgne q g hq
        rw [upd_ne _ _ hgf] at hz
        exact (mem_Pin hinv.repND).mpr
          ⟨hinv.ptRep q g (mem_ptErase.mp hq).1 hz, hgf⟩
      · intro q hq
        obtain ⟨g, hg⟩ := mem_keys_iff.mp hq
        exact hinv.keysLt q (mem_keys_iff.mpr ⟨g, (mem_ptErase.mp hg).1⟩)

theorem BPInv_flushFrame {bp : BufferPool} (hinv : BPInv bp) (f : Int) :
    BPInv (flushFrame bp f) := by
  unfold flushFrame
  split
  · refine BPInv_pages_disk_eq hinv _ _ ?_ ?_
    · intro x
      by_cases hx : x = f
      · rw [hx, upd_same]
      · rw [upd_ne _ _ hx]
    · intro x
      by_cases hx : x = f
      · rw [hx, upd_same]
      · rw [upd_ne _ _ hx]
  · exact hinv

theorem BPInv_flushAll {bp : BufferPool} (hinv : BPInv bp) :
    BPInv (FlushAllPagesImpl bp) := by
  unfold FlushAllPagesImpl
  generalize List.range bp.poolSize = l
  induction l generalizing bp with
  | nil => exact hinv
  | cons i rest ih =>
    simp only [List.foldl_cons]
    exact ih (BPInv_flushFrame hinv _)

theorem BPInv_step {bp : BufferPool} (hinv : BPInv bp) {op : BPOp}
    (hvalid : validOp bp op = true) : BPInv (bpStep bp op) := by
  cases op with
  | fetch pid =>
    have hlt : pid < bp.nextPageId := by
      simpa [validOp] using hvalid
    exact BPInv_fetch hinv hlt
  | unpin pid d => exact BPInv_unpin hinv pid d
  | new => exact BPInv_new hinv
  | del pid => exact BPInv_delete hinv pid
  | flush pid => exact BPInv_flush hinv pid
  | flushAll => exact BPInv_flushAll hinv

theorem BPInv_run {bp : BufferPool} (hinv : BPInv bp) {ops : List BPOp}
    (hv : validFrom bp ops = true) : BPInv (bpRun bp ops) := by
  induction ops generalizing bp with
  | nil => exact hinv
  | cons op rest ih =>
    simp only [validFrom, Bool.and_eq_true] at hv
    exact ih (BPInv_step hinv hv.1) hv.2

/-- Frame state: resident (mapped by the page table) and pinned. -/
def ResidentPinned (bp : BufferPool) (f : Int) : Prop :=
  f ∈ bp.pageTable.map Prod.snd ∧ 0 < (bp.pages f).pinCount

/-- Frame state: resident and in the replacer. -/
def ResidentInReplacer (bp : BufferPool) (f : Int) : Prop :=
  f ∈ bp.pageTable.map Prod.snd ∧ f ∈ bp.replacer.unpinList

/-- Frame state: on the free list. -/
def OnFreeList (bp : BufferPool) (f : Int) : Prop := f ∈ bp.freeList

/-- C2, counterexample: on a fresh pool of 2 frames, the sequence
`FetchPage(0); NewPage()` (fetching a page id that was never allocated,
which the claim's quantification over "every sequence" admits) breaks
`|page_table| + |free_list| = pool_size`: `NewPage` allocates page id 0,
which is already resident, and its page-table assignment orphans the frame
holding the fetched copy. -/
theorem c2_counterexample :
    ¬ ((bpRun (initBufferPool 2 (fun _ => zeroData)) [BPOp.fetch 0, BPOp.new]).pageTable.length
        + (bpRun (initBufferPool 2 (fun _ => zeroData)) [BPOp.fetch 0, BPOp.new]).freeList.length
        = 2) := by
  decide

/-- C2 (amended): for every sequence of buffer-pool operations in which
`FetchPage` is only called on page ids that have already been allocated
(i.e. are below `next_page_id_`), starting from a fresh pool of
`pool_size` frames: at every quiescent point the page-table size plus the
free-list size equals `pool_size`; each frame is in exactly one of the
three states {resident and pinned, resident and in the replacer, free};
and a frame holding a page with positive pin count is never returned by
the replacer's `Victim`. -/
theorem c2_amended (n : Nat) (d0 : Int → PageData) (ops : List BPOp)
    (hv : validFrom (initBufferPool n d0) ops = true) :
    (bpRun (initBufferPool n d0) ops).pageTable.length
      + (bpRun (initBufferPool n d0) ops).freeList.length = n ∧
    (∀ f : Int, 0 ≤ f → f < (n : Int) →
      (ResidentPinned (bpRun (initBufferPool n d0) ops) f ∨
        ResidentInReplacer (bpRun (initBufferPool n d0) ops) f ∨
        OnFreeList (bpRun (initBufferPool n d0) ops) f) ∧
      ¬ (ResidentPinned (bpRun (initBufferPool n d0) ops) f ∧
         ResidentInReplacer (bpRun (initBufferPool n d0) ops) f) ∧
      ¬ (ResidentPinned (bpRun (initBufferPool n d0) ops) f ∧
         OnFreeList (bpRun (initBufferPool n d0) ops) f) ∧
      ¬ (ResidentInReplacer (bpRun (initBufferPool n d0) ops) f ∧
         OnFreeList (bpRun (initBufferPool n d0) ops) f)) ∧
    (∀ (f : Int) (r' : LRUReplacer),
      (bpRun (initBufferPool n d0) ops).replacer.Victim = (some f, r') →
      ((bpRun (initBufferPool n d0) ops).pages f).pinCount = 0) := by
  have hinv : BPInv (bpRun (initBufferPool n d0) ops) :=
    BPInv_run (BPInv_init n d0) hv
  have hps : (bpRun (initBufferPool n d0) ops).poolSize = n := by
    have h1 : ∀ bp op, (bpStep bp op).poolSize = bp.poolSize := by
      intro bp op
      cases op with
      | fetch pid =>
        show (FetchPageImpl bp pid).2.poolSize = bp.poolSize
        unfold FetchPageImpl
        rcases ptLookup bp.pageTable pid with _ | f
        · dsimp only
          split
          · rfl
          · dsimp only
            unfold InitNewPage
            rcases bp.freeList with _ | ⟨f0, rest⟩
            · rcases bp.replacer.Victim with ⟨_ | g, rep⟩ <;> rfl
            · rfl
        · dsimp only
          split <;> rfl
      | unpin pid d =>
        show (UnpinPageImpl bp pid d).2.poolSize = bp.poolSize
        unfold UnpinPageImpl
        rcases ptLookup bp.pageTable pid with _ | f
        · rfl
        · dsimp only
          split
          · rfl
          · split <;> rfl
      | new =>
        show (NewPageImpl bp).2.poolSize = bp.poolSize
        unfold NewPageImpl
        split
        · rfl
        · dsimp only
          unfold InitNewPage
          rcases bp.freeList with _ | ⟨f0, rest⟩
          · rcases bp.replacer.Victim with ⟨_ | g, rep⟩ <;> rfl
          · rfl
      | del pid =>
        show (DeletePageImpl bp pid).2.poolSize = bp.poolSize
        unfold DeletePageImpl
        rcases ptLookup bp.pageTable pid with _ | f
        · rfl
        · dsimp only
          split <;> rfl
      | flush pid =>
        show (FlushPageImpl bp pid).2.poolSize = bp.poolSize
        unfold FlushPageImpl
        split
        · rfl
        · rcases ptLookup bp.pageTable pid with _ | f
          · rfl
          · dsimp only
            split <;> rfl
      | flushAll =>
        show (FlushAllPagesImpl bp).poolSize = bp.poolSize
        unfold FlushAllPagesImpl
        generalize List.range bp.poolSize = l
        induction l generalizing bp with
        | nil => rfl
        | cons i rest ih =>
          simp only [List.foldl_cons]
          rw [ih]
          unfold flushFrame
          split <;> rfl
    have : ∀ ops bp, (bpRun (bp : BufferPool) ops).poolSize = bp.poolSize := by
      intro ops
      induction ops with
      | nil => intro bp; rfl
      | cons op rest ih =>
        intro bp
        show (bpRun (bpStep bp op) rest).poolSize = bp.poolSize
        rw [ih, h1]
    rw [this]
    rfl
  refine ⟨by have hc := hinv.count; rw [hps] at hc; exact hc, ?_, ?_⟩
  · intro f h0 hn
    have hn' : f < ((bpRun (initBufferPool n d0) ops).poolSize : Int) := by
      rw [hps]
      exact hn
    refine ⟨?_, ?_, ?_, ?_⟩
    · rcases hinv.cover f h0 hn' with hc | hc
      · exact Or.inr (Or.inr hc)
      · obtain ⟨q, hq⟩ := mem_vals_iff.mp hc
        have hnn := hinv.pinNN q f hq
        by_cases hz : ((bpRun (initBufferPool n d0) ops).pages f).pinCount = 0
        · exact Or.inr (Or.inl ⟨hc, hinv.ptRep q f hq hz⟩)
        · exact Or.inl ⟨hc, by omega⟩
    · rintro ⟨⟨-, hpin⟩, ⟨-, hrep⟩⟩
      have := hinv.repPin f hrep
      omega
    · rintro ⟨⟨hres, -⟩, hfree⟩
      exact hinv.flPT f hfree hres
    · rintro ⟨⟨hres, -⟩, hfree⟩
      exact hinv.flPT f hfree hres
  · intro f r' hvic
    exact hinv.repPin f (Victim_some hvic).2.1

/-! ### Round-trip of page contents through the disk manager (C8) -/

/-- Round-trip invariant for a fixed page id `p` with contents `D`: every
resident copy of `p` holds `D`, the disk holds `D` at `p`, and `p` has
already been allocated (so `NewPage` can never claim it afresh). -/
structure DiskInv (p : Int) (D : PageData) (bp : BufferPool) : Prop where
  resident : ∀ f, (p, f) ∈ bp.pageTable → (bp.pages f).data = D
  onDisk : bp.disk p = D
  allocated : p < bp.nextPageId

theorem DiskInv_same {p : Int} {D : PageData} {bp : BufferPool}
    (hd : DiskInv p D bp) {bp' : BufferPool}
    (hpt : bp'.pageTable = bp.pageTable)
    (hdata : ∀ f, (bp'.pages f).data = (bp.pages f).data)
    (hdisk : bp'.disk p = bp.disk p)
    (hnext : bp.nextPageId ≤ bp'.nextPageId) :
    DiskInv p D bp' :=
  ⟨fun f hm => (hdata f).trans (hd.resident f (hpt ▸ hm)),
   hdisk.trans hd.onDisk,
   lt_of_lt_of_le hd.allocated hnext⟩

theorem InitNewPage_pages_self {bp : BufferPool}
    (hguard : ¬(bp.freeList.isEmpty && bp.replacer.Size == 0) = true)
    (pid : Int) :
    (InitNewPage bp pid).2.pages (InitNewPage bp pid).1
      = ⟨pid, 1, false, zeroData⟩ := by
  unfold InitNewPage
  rcases hfl : bp.freeList with _ | ⟨f0, rest⟩
  · rcases hv : bp.replacer.Victim with ⟨ov, rep⟩
    rcases ov with _ | f0
    · have hempty : bp.replacer.unpinList = [] := by
        have := (Victim_fst_eq_none (r := bp.replacer))
        rw [hv] at this
        simpa using this
      have hsz : bp.replacer.Size = 0 := by
        simp [LRUReplacer.Size, hempty]
      simp [hfl, hsz] at hguard
    · dsimp only
      simp [upd]
  · dsimp only
    simp [upd]

/-- `InitNewPage` preserves the round-trip invariant of an already
resident-or-on-disk page `p` distinct from the page being initialized; a
dirty victim write-back of `p`'s own frame writes `D` back to `p`. -/
theorem DiskInv_InitNewPage {bp : BufferPool} (hbp : BPInv bp) {p : Int}
    {D : PageData} (hd : DiskInv p D bp) {pid : Int} (hne : pid ≠ p) :
    DiskInv p D (InitNewPage bp pid).2 := by
  unfold InitNewPage
  rcases hfl : bp.freeList with _ | ⟨f0, rest⟩
  · rcases hv : bp.replacer.Victim with ⟨ov, rep⟩
    rcases ov with _ | f0
    · exact hd
    · dsimp only
      have hv' : bp.replacer.Victim = (some f0, rep) := hv
      have hf0rep : f0 ∈ bp.replacer.unpinList := (Victim_some hv').2.1
      have hf0v : f0 ∈ bp.pageTable.map Prod.snd := hbp.repPT f0 hf0rep
      obtain ⟨vp, hvm⟩ := mem_vals_iff.mp hf0v
      have hvpid : (bp.pages f0).pageId = vp := hbp.framePid vp f0 hvm
      refine ⟨?_, ?_, hd.allocated⟩
      · intro g hg
        dsimp only at hg ⊢
        rw [hvpid] at hg
        rcases mem_ptInsert.mp hg with hm | hm
        · exact absurd hm.1.symm hne
        · have hgf : g ≠ f0 := by
            intro he
            exact (mem_ptErase.mp hm.1).2
              (vals_unique hbp.valsND (he ▸ (mem_ptErase.mp hm.1).1) hvm)
          rw [upd_ne _ _ hgf]
          exact hd.resident g (mem_ptErase.mp (hm.1)).1
      · dsimp only
        rw [hvpid]
        split
        · show (diskWrite bp.disk vp (bp.pages f0).data) p = D
          unfold diskWrite
          by_cases hvp : p = vp
          · rw [if_pos hvp]
            have hpm : (p, f0) ∈ bp.pageTable := by
              rw [hvp]
              exact hvm
            exact hd.resident f0 hpm
          · rw [if_neg hvp]
            exact hd.onDisk
        · exact hd.onDisk
  · dsimp only
    have hf0 : f0 ∈ bp.freeList := by
      rw [hfl]
      exact List.mem_cons_self _ _
    have hf0nv : f0 ∉ bp.pageTable.map Prod.snd := hbp.flPT f0 hf0
    refine ⟨?_, hd.onDisk, hd.allocated⟩
    intro g hg
    dsimp only at hg ⊢
    rcases mem_ptInsert.mp hg with hm | hm
    · exact absurd hm.1.symm hne
    · have hgf : g ≠ f0 := fun he => hf0nv (he ▸ mem_vals_iff.mpr ⟨p, hm.1⟩)
      rw [upd_ne _ _ hgf]
      exact hd.resident g hm.1

/-- Bumping `next_page_id_` preserves the state invariant. -/
theorem BPInv_bump {bp : BufferPool} (hinv : BPInv bp) :
    BPInv { bp with nextPageId := bp.nextPageId + 1 } :=
  ⟨hinv.keysND, hinv.valsND, hinv.flND, hinv.repND, hinv.count,
   hinv.valsRange, hinv.flRange, hinv.flPT, hinv.cover, hinv.framePid,
   hinv.freeFrame, hinv.pinNN, hinv.repPT, hinv.repPin, hinv.ptRep,
   fun p hp => by
     have := hinv.keysLt p hp
     dsimp only
     omega⟩

/-- The shape of the state produced by `InitNewPage`: the page table is the
old table (possibly with the victim's entry erased) extended by the new
entry, and `next_page_id_` is untouched. -/
theorem InitNewPage_shape {bp : BufferPool}
    (hguard : ¬(bp.freeList.isEmpty && bp.replacer.Size == 0) = true)
    (pid : Int) :
    (∃ X : PageTable,
      (InitNewPage bp pid).2.pageTable = ptInsert X pid (InitNewPage bp pid).1 ∧
      ∀ e ∈ X, e ∈ bp.pageTable) ∧
    (InitNewPage bp pid).2.nextPageId = bp.nextPageId := by
  unfold InitNewPage
  rcases hfl : bp.freeList with _ | ⟨f0, rest⟩
  · rcases hv : bp.replacer.Victim with ⟨ov, rep⟩
    rcases ov with _ | f0
    · have hempty : bp.replacer.unpinList = [] := by
        have := (Victim_fst_eq_none (r := bp.replacer))
        rw [hv] at this
        simpa using this
      have hsz : bp.replacer.Size = 0 := by
        simp [LRUReplacer.Size, hempty]
      simp [hfl, hsz] at hguard
    · exact ⟨⟨ptErase bp.pageTable (bp.pages f0).pageId, rfl,
        fun e he => (mem_ptErase (p := (bp.pages f0).pageId)
          (q := e.1) (f := e.2)).mp he |>.1⟩, rfl⟩
  · exact ⟨⟨bp.pageTable, rfl, fun e he => he⟩, rfl⟩

/-- `InitNewPage` does not write the disk at any non-resident page id. -/
theorem InitNewPage_disk_not_resident {bp : BufferPool} (hbp : BPInv bp)
    {p : Int} (hp : p ∉ bp.pageTable.map Prod.fst) (pid : Int) :
    (InitNewPage bp pid).2.disk p = bp.disk p := by
  unfold InitNewPage
  rcases hfl : bp.freeList with _ | ⟨f0, rest⟩
  · rcases hv : bp.replacer.Victim with ⟨ov, rep⟩
    rcases ov with _ | f0
    · rfl
    · dsimp only
      split
      · have hv' : bp.replacer.Victim = (some f0, rep) := hv
        have hf0rep : f0 ∈ bp.replacer.unpinList := (Victim_some hv').2.1
        have hf0v : f0 ∈ bp.pageTable.map Prod.snd := hbp.repPT f0 hf0rep
        obtain ⟨vp, hvm⟩ := mem_vals_iff.mp hf0v
        have hvpid : (bp.pages f0).pageId = vp := hbp.framePid vp f0 hvm
        rw [hvpid]
        unfold diskWrite
        rw [if_neg]
        intro he
        exact hp (he ▸ mem_keys_iff.mpr ⟨f0, hvm⟩)
      · rfl
  · rfl

/-- The frame claimed by `InitNewPage` is mapped only by the new
page-table entry: no remaining old entry refers to it. -/
theorem InitNewPage_frame_fresh {bp : BufferPool} (hbp : BPInv bp)
    (hguard : ¬(bp.freeList.isEmpty && bp.replacer.Size == 0) = true)
    (pid : Int) :
    ∃ X : PageTable,
      (InitNewPage bp pid).2.pageTable = ptInsert X pid (InitNewPage bp pid).1 ∧
      (∀ e ∈ X, e ∈ bp.pageTable) ∧
      ∀ q, (q, (InitNewPage bp pid).1) ∉ X := by
  unfold InitNewPage
  rcases hfl : bp.freeList with _ | ⟨f0, rest⟩
  · rcases hv : bp.replacer.Victim with ⟨ov, rep⟩
    rcases ov with _ | f0
    · have hempty : bp.replacer.unpinList = [] := by
        have := (Victim_fst_eq_none (r := bp.replacer))
        rw [hv] at this
        simpa using this
      have hsz : bp.replacer.Size = 0 := by
        simp [LRUReplacer.Size, hempty]
      simp [hfl, hsz] at hguard
    · dsimp only
      have hv' : bp.replacer.Victim = (some f0, rep) := hv
      have hf0rep : f0 ∈ bp.replacer.unpinList := (Victim_some hv').2.1
      have hf0v : f0 ∈ bp.pageTable.map Prod.snd := hbp.repPT f0 hf0rep
      obtain ⟨vp, hvm⟩ := mem_vals_iff.mp hf0v
      have hvpid : (bp.pages f0).pageId = vp := hbp.framePid vp f0 hvm
      refine ⟨ptErase bp.pageTable (bp.pages f0).pageId, rfl,
        fun e he => (mem_ptErase (p := (bp.pages f0).pageId)
          (q := e.1) (f := e.2)).mp he |>.1, ?_⟩
      intro q hq
      rw [hvpid] at hq
      exact (mem_ptErase.mp hq).2 (vals_unique hbp.valsND (mem_ptErase.mp hq).1 hvm)
  · dsimp only
    have hf0 : f0 ∈ bp.freeList := by
      rw [hfl]
      exact List.mem_cons_self _ _
    refine ⟨bp.pageTable, rfl, fun e he => he, ?_⟩
    intro q hq
    exact hbp.flPT f0 hf0 (mem_vals_iff.mpr ⟨q, hq⟩)

/-- `FetchPage` preserves the round-trip invariant (no validity needed:
even a fetch of `p` itself reads `D` back in from disk). -/
theorem DiskInv_fetch {bp : BufferPool} (hbp : BPInv bp) {p : Int}
    {D : PageData} (hd : DiskInv p D bp) (pid : Int) :
    DiskInv p D (FetchPageImpl bp pid).2 := by
  unfold FetchPageImpl
  rcases hl : ptLookup bp.pageTable pid with _ | f
  · dsimp only
    split
    · exact hd
    next hguard =>
      dsimp only
      have hnotres : pid ∉ bp.pageTable.map Prod.fst := ptLookup_eq_none_iff.mp hl
      by_cases hne : pid = p
      · subst hne
        obtain ⟨⟨X, hX, hXsub⟩, hnext⟩ := InitNewPage_shape hguard pid
        have hdisk : (InitNewPage bp pid).2.disk pid = bp.disk pid :=
          InitNewPage_disk_not_resident hbp hnotres pid
        refine ⟨?_, ?_, ?_⟩
        · intro g hg
          dsimp only at hg ⊢
          rw [hX] at hg
          rcases mem_ptInsert.mp hg with hm | hm
          · rw [hm.2, upd_same]
            show (InitNewPage bp pid).2.disk pid = D
            rw [hdisk]
            exact hd.onDisk
          · exact absurd rfl hm.2
        · show (InitNewPage bp pid).2.disk pid = D
          rw [hdisk]
          exact hd.onDisk
        · show pid < (InitNewPage bp pid).2.nextPageId
          rw [hnext]
          exact hd.allocated
      · have hd2 := DiskInv_InitNewPage hbp hd hne
        obtain ⟨X, hX, hXsub, hXfresh⟩ := InitNewPage_frame_fresh hbp hguard pid
        refine ⟨?_, hd2.onDisk, hd2.allocated⟩
        intro g hg
        dsimp only at hg ⊢
        by_cases hgf : g = (InitNewPage bp pid).1
        · exfalso
          rw [hX] at hg
          rcases mem_ptInsert.mp hg with hm | hm
          · exact hne hm.1.symm
          · exact hXfresh p (hgf ▸ hm.1)
        · rw [upd_ne _ _ hgf]
          exact hd2.resident g hg
  · dsimp only
    split
    · refine DiskInv_same hd rfl ?_ rfl le_rfl
      intro g
      dsimp only
      by_cases hgf : g = f
      · rw [hgf, upd_same]
      · rw [upd_ne _ _ hgf]
    · refine DiskInv_same hd rfl ?_ rfl le_rfl
      intro g
      dsimp only
      by_cases hgf : g = f
      · rw [hgf, upd_same]
      · rw [upd_ne _ _ hgf]

theorem DiskInv_unpin {bp : BufferPool} {p : Int} {D : PageData}
    (hd : DiskInv p D bp) (pid : Int) (d : Bool) :
    DiskInv p D (UnpinPageImpl bp pid d).2 := by
  unfold UnpinPageImpl
  rcases hl : ptLookup bp.pageTable pid with _ | f
  · exact hd
  · dsimp only
    split
    · exact hd
    · split
      · refine DiskInv_same hd rfl ?_ rfl le_rfl
        intro g
        dsimp only
        by_cases hgf : g = f
        · rw [hgf, upd_same]
        · rw [upd_ne _ _ hgf]
      · refine DiskInv_same hd rfl ?_ rfl le_rfl
        intro g
        dsimp only
        by_cases hgf : g = f
        · rw [hgf, upd_same]
        · rw [upd_ne _ _ hgf]

theorem DiskInv_flush {bp : BufferPool} (hbp : BPInv bp) {p : Int}
    {D : PageData} (hd : DiskInv p D bp) (pid : Int) :
    DiskInv p D (FlushPageImpl bp pid).2 := by
  unfold FlushPageImpl
  split
  · exact hd
  · rcases hl : ptLookup bp.pageTable pid with _ | f
    · exact hd
    · dsimp only
      split
      next hdirty =>
        have hm : (pid, f) ∈ bp.pageTable := (ptLookup_eq_some_iff hbp.keysND).mp hl
        have hfp : (bp.pages f).pageId = pid := hbp.framePid pid f hm
        refine ⟨?_, ?_, hd.allocated⟩
        · intro g hg
          dsimp only at hg ⊢
          by_cases hgf : g = f
          · rw [hgf, upd_same]
            show (bp.pages f).data = D
            exact hd.resident f (hgf ▸ hg)
          · rw [upd_ne _ _ hgf]
            exact hd.resident g hg
        · show (diskWrite bp.disk (bp.pages f).pageId (bp.pages f).data) p = D
          rw [hfp]
          unfold diskWrite
          by_cases hpp : p = pid
          · rw [if_pos hpp]
            exact hd.resident f (by rw [hpp]; exact hm)
          · rw [if_neg hpp]
            exact hd.onDisk
      · exact hd

theorem DiskInv_new {bp : BufferPool} (hbp : BPInv bp) {p : Int}
    {D : PageData} (hd : DiskInv p D bp) :
    DiskInv p D (NewPageImpl bp).2 := by
  unfold NewPageImpl
  split
  · exact hd
  next hguard =>
    dsimp only
    have hbp1 : BPInv { bp with nextPageId := bp.nextPageId + 1 } := BPInv_bump hbp
    have hd1 : DiskInv p D { bp with nextPageId := bp.nextPageId + 1 } :=
      ⟨hd.resident, hd.onDisk, by
        have := hd.allocated
        dsimp only
        omega⟩
    have hne : bp.nextPageId ≠ p := by
      have := hd.allocated
      omega
    have hd2 := DiskInv_InitNewPage hbp1 hd1 hne
    have hself := @InitNewPage_pages_self
      { bp with nextPageId := bp.nextPageId + 1 } hguard bp.nextPageId
    refine ⟨hd2.resident, ?_, hd2.allocated⟩
    show (diskWrite _ _ _) p = D
    rw [hself]
    unfold diskWrite
    rw [if_neg (fun he => hne he.symm)]
    exact hd2.onDisk

theorem DiskInv_delete {bp : BufferPool} (hbp : BPInv bp) {p : Int}
    {D : PageData} (hd : DiskInv p D bp) (pid : Int) :
    DiskInv p D (DeletePageImpl bp pid).2 := by
  unfold DeletePageImpl
  rcases hl : ptLookup bp.pageTable pid with _ | f
  · exact hd
  · dsimp only
    split
    · exact hd
    next hpin =>
      have hm : (pid, f) ∈ bp.pageTable := (ptLookup_eq_some_iff hbp.keysND).mp hl
      refine ⟨?_, ?_, hd.allocated⟩
      · intro g hg
        dsimp only at hg ⊢
        have hgm := (mem_ptErase.mp hg).1
        have hnp : p ≠ pid := (mem_ptErase.mp hg).2
        have hgf : g ≠ f := by
          intro he
          exact hnp (vals_unique hbp.valsND (he ▸ hgm) hm)
        rw [upd_ne _ _ hgf]
        exact hd.resident g hgm
      · dsimp only
        split
        · show (diskWrite bp.disk pid (bp.pages f).data) p = D
          unfold diskWrite
          by_cases hpp : p = pid
          · rw [if_pos hpp]
            exact hd.resident f (by rw [hpp]; exact hm)
          · rw [if_neg hpp]
            exact hd.onDisk
        · exact hd.onDisk

theorem DiskInv_flushFrame {bp : BufferPool} (hbp : BPInv bp) {p : Int}
    {D : PageData} (hd : DiskInv p D bp) {f : Int} (h0 : 0 ≤ f)
    (hn : f < (bp.poolSize : Int)) : DiskInv p D (flushFrame bp f) := by
  unfold flushFrame
  split
  next hcond =>
    obtain ⟨hnid, hdirty⟩ := hcond
    refine ⟨?_, ?_, hd.allocated⟩
    · intro g hg
      dsimp only at hg ⊢
      by_cases hgf : g = f
      · rw [hgf, upd_same]
        show (bp.pages f).data = D
        exact hd.resident f (hgf ▸ hg)
      · rw [upd_ne _ _ hgf]
        exact hd.resident g hg
    · show (diskWrite bp.disk (bp.pages f).pageId (bp.pages f).data) p = D
      unfold diskWrite
      by_cases hpp : p = (bp.pages f).pageId
      · rw [if_pos hpp]
        rcases hbp.cover f h0 hn with hc | hc
        · exact absurd (hbp.freeFrame f hc).1 hnid
        · obtain ⟨q, hq⟩ := mem_vals_iff.mp hc
          have : (bp.pages f).pageId = q := hbp.framePid q f hq
          exact hd.resident f (by rw [hpp, this]; exact hq)
      · rw [if_neg hpp]
        exact hd.onDisk
  · exact hd

theorem flushFrame_poolSize (bp : BufferPool) (f : Int) :
    (flushFrame bp f).poolSize = bp.poolSize := by
  unfold flushFrame
  split <;> rfl

theorem DiskInv_flushAll {bp : BufferPool} (hbp : BPInv bp) {p : Int}
    {D : PageData} (hd : DiskInv p D bp) :
    DiskInv p D (FlushAllPagesImpl bp) := by
  unfold FlushAllPagesImpl
  have key : ∀ (l : List Nat) (b : BufferPool), BPInv b → DiskInv p D b →
      (∀ i ∈ l, (Int.ofNat i) < (b.poolSize : Int)) →
      DiskInv p D (l.foldl (fun c i => flushFrame c (Int.ofNat i)) b) := by
    intro l
    induction l with
    | nil =>
      intro b _ hdb _
      exact hdb
    | cons i rest ih =>
      intro b hb hdb hbound
      simp only [List.foldl_cons]
      refine ih _ (BPInv_flushFrame hb _)
        (DiskInv_flushFrame hb hdb (Int.ofNat_nonneg i)
          (hbound i (List.mem_cons_self _ _))) ?_
      intro j hj
      rw [flushFrame_poolSize]
      exact hbound j (List.mem_cons.mpr (Or.inr hj))
  refine key _ bp hbp hd ?_
  intro i hi
  simp only [List.mem_range] at hi
  exact Int.ofNat_lt.mpr hi

theorem DiskInv_step {bp : BufferPool} (hbp : BPInv bp) {p : Int}
    {D : PageData} (hd : DiskInv p D bp) (op : BPOp) :
    DiskInv p D (bpStep bp op) := by
  cases op with
  | fetch pid => exact DiskInv_fetch hbp hd pid
  | unpin pid d => exact DiskInv_unpin hd pid d
  | new => exact DiskInv_new hbp hd
  | del pid => exact DiskInv_delete hbp hd pid
  | flush pid => exact DiskInv_flush hbp hd pid
  | flushAll => exact DiskInv_flushAll hbp hd

theorem DiskInv_run {bp : BufferPool} (hbp : BPInv bp) {p : Int}
    {D : PageData} (hd : DiskInv p D bp) {ops : List BPOp}
    (hv : validFrom bp ops = true) : DiskInv p D (bpRun bp ops) := by
  induction ops generalizing bp with
  | nil => exact hd
  | cons op rest ih =>
    simp only [validFrom, Bool.and_eq_true] at hv
    exact ih (BPInv_step hbp hv.1) (DiskInv_step hbp hd op) hv.2

/-- A `FetchPage` of `p` under the round-trip invariant returns a frame
holding exactly the preserved bytes `D`. -/
theorem DiskInv_fetch_result {bp : BufferPool} (hbp : BPInv bp) {p : Int}
    {D : PageData} (hd : DiskInv p D bp) {f : Int} {bp' : BufferPool}
    (h : FetchPageImpl bp p = (some f, bp')) : (bp'.pages f).data = D := by
  unfold FetchPageImpl at h
  rcases hl : ptLookup bp.pageTable p with _ | g
  · rw [hl] at h
    dsimp only at h
    split at h
    · simp at h
    next hguard =>
      have h1 := congrArg Prod.fst h
      have h2 := congrArg Prod.snd h
      simp only at h1 h2
      simp at h1
      obtain ⟨rfl⟩ := h1
      rw [← h2]
      dsimp only
      rw [upd_same]
      show (InitNewPage bp p).2.disk p = D
      rw [InitNewPage_disk_not_resident hbp (ptLookup_eq_none_iff.mp hl) p]
      exact hd.onDisk
  · rw [hl] at h
    dsimp only at h
    have hm : (p, g) ∈ bp.pageTable := (ptLookup_eq_some_iff hbp.keysND).mp hl
    have h1 := congrArg Prod.fst h
    have h2 := congrArg Prod.snd h
    simp only at h1 h2
    simp at h1
    obtain ⟨rfl⟩ := h1
    rw [← h2]
    split
    · dsimp only
      rw [upd_same]
      show (bp.pages f).data = D
      exact hd.resident f hm
    · dsimp only
      rw [upd_same]
      show (bp.pages f).data = D
      exact hd.resident f hm

/-- After `UnpinPage(p, true)` on a resident pinned page, the page table
is unchanged and the page's frame is marked dirty with its data intact. -/
theorem unpin_dirty_state {bp : BufferPool} (hbp : BPInv bp) {p f0 : Int}
    (hm : (p, f0) ∈ bp.pageTable) (hpin : 0 < (bp.pages f0).pinCount) :
    (UnpinPageImpl bp p true).2.pageTable = bp.pageTable ∧
    ((UnpinPageImpl bp p true).2.pages f0).isDirty = true ∧
    ((UnpinPageImpl bp p true).2.pages f0).data = (bp.pages f0).data ∧
    (UnpinPageImpl bp p true).2.nextPageId = bp.nextPageId := by
  have hlookup : ptLookup bp.pageTable p = some f0 :=
    (ptLookup_eq_some_iff hbp.keysND).mpr hm
  unfold UnpinPageImpl
  rw [hlookup]
  dsimp only
  rw [if_neg (by omega)]
  split
  · refine ⟨rfl, ?_, ?_, rfl⟩
    · dsimp only
      rw [upd_same]
      show ((bp.pages f0).isDirty || true) = true
      simp
    · dsimp only
      rw [upd_same]
  · refine ⟨rfl, ?_, ?_, rfl⟩
    · dsimp only
      rw [upd_same]
      show ((bp.pages f0).isDirty || true) = true
      simp
    · dsimp only
      rw [upd_same]

/-- `FlushPage(p)` on a dirty resident frame holding `D` establishes the
round-trip invariant for `p`. -/
theorem DiskInv_establish_flush {b : BufferPool} (hb : BPInv b) {p f0 : Int}
    {D : PageData} (hm : (p, f0) ∈ b.pageTable)
    (hdirty : (b.pages f0).isDirty = true) (hdata : (b.pages f0).data = D)
    (hp0 : ¬(p = INVALID_PAGE_ID)) (halloc : p < b.nextPageId) :
    DiskInv p D (FlushPageImpl b p).2 := by
  have hlookup : ptLookup b.pageTable p = some f0 :=
    (ptLookup_eq_some_iff hb.keysND).mpr hm
  have hpid : (b.pages f0).pageId = p := hb.framePid p f0 hm
  unfold FlushPageImpl
  rw [if_neg hp0, hlookup]
  dsimp only
  rw [if_pos hdirty]
  refine ⟨?_, ?_, halloc⟩
  · intro g hg
    dsimp only at hg ⊢
    have hgf0 : g = f0 := keys_unique hb.keysND hg hm
    rw [hgf0, upd_same]
    exact hdata
  · show (diskWrite b.disk (b.pages f0).pageId (b.pages f0).data) p = D
    rw [hpid]
    unfold diskWrite
    rw [if_pos rfl]
    exact hdata

/-- C8: for a resident pinned page `p` whose frame holds the written bytes
`D`, after `UnpinPage(p, true)`, then `FlushPage(p)`, then any valid
sequence of operations (including any that evicts `p`'s frame), a
subsequent successful `FetchPage(p)` returns a frame whose 4096 bytes
equal `D`: the round trip through the disk manager preserves page
contents. -/
theorem c8_round_trip (bp : BufferPool) (hbp : BPInv bp) (p f0 : Int)
    (D : PageData) (hres : (p, f0) ∈ bp.pageTable)
    (hdata : (bp.pages f0).data = D) (hpin : 0 < (bp.pages f0).pinCount)
    (hp0 : p ≠ INVALID_PAGE_ID) (ops : List BPOp)
    (hv : validFrom (bpStep (bpStep bp (BPOp.unpin p true)) (BPOp.flush p)) ops
      = true) :
    ∀ (f : Int) (bp' : BufferPool),
      FetchPageImpl
          (bpRun (bpStep (bpStep bp (BPOp.unpin p true)) (BPOp.flush p)) ops) p
        = (some f, bp') →
      (bp'.pages f).data = D := by
  intro f bp' hfetch
  have halloc : p < bp.nextPageId := hbp.keysLt p (mem_keys_iff.mpr ⟨f0, hres⟩)
  have hbp1 : BPInv (bpStep bp (BPOp.unpin p true)) := BPInv_unpin hbp p true
  obtain ⟨hpt1, hdirty1, hdata1, hnext1⟩ := unpin_dirty_state hbp hres hpin
  have hm1 : (p, f0) ∈ (bpStep bp (BPOp.unpin p true)).pageTable := by
    show (p, f0) ∈ (UnpinPageImpl bp p true).2.pageTable
    rw [hpt1]
    exact hres
  have hd2 : DiskInv p D (bpStep (bpStep bp (BPOp.unpin p true)) (BPOp.flush p)) :=
    DiskInv_establish_flush hbp1 hm1 hdirty1 (hdata1.trans hdata) hp0
      (by rw [show (bpStep bp (BPOp.unpin p true)).nextPageId = bp.nextPageId from hnext1]
          exact halloc)
  have hbp2 : BPInv (bpStep (bpStep bp (BPOp.unpin p true)) (BPOp.flush p)) :=
    BPInv_flush hbp1 p
  have hbp3 := BPInv_run hbp2 hv
  have hd3 := DiskInv_run hbp2 hd2 hv
  exact DiskInv_fetch_result hbp3 hd3 hfetch

/-- Witness for `c8_round_trip` on a fresh one-frame pool: page 0 is
created, unpinned dirty, flushed, and fetched back with its zero bytes. -/
theorem c8_witness :
    ((FetchPageImpl (bpRun (bpStep (bpStep (bpStep (initBufferPool 1 (fun _ => zeroData))
        BPOp.new) (BPOp.unpin 0 true)) (BPOp.flush 0)) []) 0).2.pages 0).data
      = zeroData := by
  have hbp : BPInv (bpStep (initBufferPool 1 (fun _ => zeroData)) BPOp.new) :=
    BPInv_step (BPInv_init 1 (fun _ => zeroData)) (by decide)
  exact c8_round_trip (bpStep (initBufferPool 1 (fun _ => zeroData)) BPOp.new) hbp 0 0
    zeroData (by decide) rfl (by decide) (by decide) [] rfl 0 _
    (Prod.ext (by decide) rfl)

/-- Witness for `c2_amended`: one `NewPage` then `UnpinPage(0, true)` on a
fresh one-frame pool, checked at frame 0. -/
theorem c2_amended_witness :
    (bpRun (initBufferPool 1 (fun _ => zeroData)) [BPOp.new, BPOp.unpin 0 true]).pageTable.length
      + (bpRun (initBufferPool 1 (fun _ => zeroData)) [BPOp.new, BPOp.unpin 0 true]).freeList.length
      = 1 ∧
    (ResidentPinned (bpRun (initBufferPool 1 (fun _ => zeroData)) [BPOp.new, BPOp.unpin 0 true]) 0 ∨
      ResidentInReplacer (bpRun (initBufferPool 1 (fun _ => zeroData)) [BPOp.new, BPOp.unpin 0 true]) 0 ∨
      OnFreeList (bpRun (initBufferPool 1 (fun _ => zeroData)) [BPOp.new, BPOp.unpin 0 true]) 0) := by
  have h := c2_amended 1 (fun _ => zeroData) [BPOp.new, BPOp.unpin 0 true] (by decide)
  exact ⟨h.1, (h.2.1 0 (by decide) (by decide)).1⟩

/-! ## CoalesceOrRedistribute (b_plus_tree.cpp, lines 278-468), leaf level -/

namespace CoR

/-- The fields of a B+ tree page used by `CoalesceOrRedistribute`, for
either page kind: its page id, whether it is a leaf, its ordered
`(key, value)` entry array (leaf: value is a record id; internal: value
is a child page id and entry 0's key is unused), `max_size`, and the
`next_page_id` sibling pointer (meaningful for leaves only). -/
structure Node where
  pageId : Int
  isLeaf : Bool
  entries : List (Int × Int)
  maxSize : Int
  next : Int
  deriving DecidableEq

/-- `GetSize` (an accessor declared outside src/): the entry count. -/
def GetSize (n : Node) : Int := n.entries.length

/-- Modelled from the spec: `KeyAt` on a node's entry array (accessor not
under src/). -/
def KeyAtNode (n : Node) (i : Nat) : Int := (n.entries.getD i (0, 0)).1

/-- Modelled from the spec: `SetKeyAt(0, k)` on a node's entry array (the
page accessors are not under src/) — replace the key of entry 0, used by
the internal-page redistribute branches (b_plus_tree.cpp lines 351, 373)
to pull the parent's separator down. -/
def setKey0 (k : Int) : List (Int × Int) → List (Int × Int)
  | [] => []
  | e :: r => (k, e.2) :: r

/-- `BPlusTree::IsCoalesce` (lines 427-431):
`lhs->GetSize() + rhs->GetSize() < lhs->GetMaxSize()`. -/
def IsCoalesce (lhs rhs : Node) : Bool :=
  GetSize lhs + GetSize rhs < lhs.maxSize

/-- The parent internal page: `(key, child page id)` entries, entry 0's
key being a sentinel. -/
structure Parent where
  entries : List (Int × Int)
  deriving DecidableEq

/-- Modelled from the spec: `InternalPage::ValueIndex` (not under src/) —
the index of the entry whose child page id matches. -/
def ValueIndex (p : Parent) (pid : Int) : Nat :=
  p.entries.findIdx (fun e => e.2 == pid)

/-- Modelled from the spec: `InternalPage::ValueAt` (not under src/). -/
def ValueAt (p : Parent) (i : Nat) : Int := (p.entries.getD i (0, 0)).2

/-- Modelled from the spec: `InternalPage::KeyAt` (not under src/). -/
def KeyAt (p : Parent) (i : Nat) : Int := (p.entries.getD i (0, 0)).1

/-- Modelled from the spec: `InternalPage::SetKeyAt` (not under src/) —
replace the key of entry `i`. -/
def SetKeyAt (p : Parent) (i : Nat) (k : Int) : Parent :=
  ⟨p.entries.set i (k, (p.entries.getD i (0, 0)).2)⟩

/-- Modelled from the spec: `InternalPage::Remove` (not under src/) —
erase entry `i`. -/
def Parent.Remove (p : Parent) (i : Nat) : Parent := ⟨p.entries.eraseIdx i⟩

/-- The leaf half of `BPlusTree::Coalesce` (lines 404-408):
`cur_lp->MoveAllTo(sib_lp); sib_lp->SetNextPageId(cur_lp->GetNextPageId())`.
`MoveAllTo` is modelled from the spec ("append all entries of node to the
left sibling; set left.next = node.next"). -/
def MoveAllTo (src dst : Node) : Node :=
  { dst with entries := dst.entries ++ src.entries, next := src.next }

/-- The internal half of `BPlusTree::Coalesce` (line 412):
`cur_ip->MoveAllTo(sib_ip, (*parent)->KeyAt(index), buffer_pool_manager_)`.
The internal `MoveAllTo` is modelled from the spec ("the separator is
moved down as the bridging key"): the source page's unused entry-0 key is
replaced by the parent's separator `middleKey`, then all entries are
appended to the recipient. -/
def MoveAllToInternal (src dst : Node) (middleKey : Int) : Node :=
  { dst with entries := dst.entries ++ setKey0 middleKey src.entries }

/-- Modelled from the spec: `MoveLastToFrontOf` (the page sources are not
under src/) — "move its last entry to front of node". Returns the new
(sibling, node) pair. -/
def MoveLastToFrontOf (sib node : Node) : Node × Node :=
  match sib.entries.getLast? with
  | none => (sib, node)
  | some e =>
    ({ sib with entries := sib.entries.dropLast },
     { node with entries := e :: node.entries })

/-- Modelled from the spec: `MoveFirstToEndOf` (the page sources are not
under src/) — "move its first entry to end of node". -/
def MoveFirstToEndOf (sib node : Node) : Node × Node :=
  match sib.entries with
  | [] => (sib, node)
  | e :: rest =>
    ({ sib with entries := rest },
     { node with entries := node.entries ++ [e] })

/-- Which branch of `CoalesceOrRedistribute` ran. -/
inductive Action where
  | coalesceLeft
  | coalesceRight
  | redistributeLeft
  | redistributeRight
  deriving DecidableEq

/-- The outcome of `CoalesceOrRedistribute`: the chosen action, the node
and sibling afterwards, the parent afterwards, the page ids added to the
transaction's deleted-page set, and the boolean result ("node was
deleted"). -/
structure CoRResult where
  action : Action
  node : Node
  sib : Node
  parent : Parent
  deletedPageSet : List Int
  ret : Bool
  deriving DecidableEq

/-- `BPlusTree::CoalesceOrRedistribute` (lines 289-384) for a non-root
node of either kind (the root case, lines 282-288, takes the
`AdjustRoot` path instead): try to coalesce into the left sibling, then
the right sibling into the node, else redistribute with the left sibling
if it exists and otherwise with the right. Coalescing a leaf appends its
entries and splices the next pointer (lines 404-408); coalescing an
internal page pulls the parent's separator down as the bridging key of
the moved block (line 412). Leaf redistribution moves one boundary entry
and copies the new boundary key into the parent (lines 342-345, 365-368);
internal redistribution first installs the parent's separator as the
receiving slot's entry-0 key (`SetKeyAt(0, middle_key)`, lines 347-353
and 371-376), moves the boundary pair, and promotes the sibling's
boundary key into the parent. `store` resolves sibling page ids fetched
from the buffer pool. The recursion into an underflowing parent inside
`Coalesce` (lines 419-422) is beyond this single-level model; its result
is discarded by the caller (lines 302, 323) in any case. -/
def CoalesceOrRedistribute (node : Node) (parent : Parent)
    (store : Int → Node) : CoRResult :=
  let index := ValueIndex parent node.pageId
  let leftSib := store (ValueAt parent (index - 1))
  let rightSib := store (ValueAt parent (index + 1))
  if 1 ≤ index ∧ IsCoalesce node leftSib then
    { action := .coalesceLeft,
      node := node,
      sib := if node.isLeaf then MoveAllTo node leftSib
             else MoveAllToInternal node leftSib (KeyAt parent index),
      parent := parent.Remove index,
      deletedPageSet := [node.pageId],
      ret := true }
  else if index + 1 < parent.entries.length ∧ IsCoalesce node rightSib then
    { action := .coalesceRight,
      node := if node.isLeaf then MoveAllTo rightSib node
              else MoveAllToInternal rightSib node (KeyAt parent (index + 1)),
      sib := rightSib,
      parent := parent.Remove (index + 1),
      deletedPageSet := [rightSib.pageId],
      ret := true }
  else if 1 ≤ index then
    if node.isLeaf then
      let key := KeyAtNode leftSib (leftSib.entries.length - 1)
      let parent1 := SetKeyAt parent index key
      let moved := MoveLastToFrontOf leftSib node
      { action := .redistributeLeft, node := moved.2, sib := moved.1,
        parent := parent1, deletedPageSet := [], ret := false }
    else
      let middleKey := KeyAt parent index
      let node1 := { node with entries := setKey0 middleKey node.entries }
      let parent1 :=
        SetKeyAt parent index (KeyAtNode leftSib (leftSib.entries.length - 1))
      let moved := MoveLastToFrontOf leftSib node1
      { action := .redistributeLeft, node := moved.2, sib := moved.1,
        parent := parent1, deletedPageSet := [], ret := false }
  else
    if node.isLeaf then
      let key := KeyAtNode rightSib 1
      let parent1 := SetKeyAt parent (index + 1) key
      let moved := MoveFirstToEndOf rightSib node
      { action := .redistributeRight, node := moved.2, sib := moved.1,
        parent := parent1, deletedPageSet := [], ret := false }
    else
      let middleKey := KeyAt parent (index + 1)
      let sib1 := { rightSib with entries := setKey0 middleKey rightSib.entries }
      let parent1 := SetKeyAt parent (index + 1) (KeyAtNode sib1 1)
      let moved := MoveFirstToEndOf sib1 node
      { action := .redistributeRight, node := moved.2, sib := moved.1,
        parent := parent1, deletedPageSet := [], ret := false }

end CoR

theorem getD_of_getLast? {l : List (Int × Int)} {e : Int × Int}
    (h : l.getLast? = some e) : l.getD (l.length - 1) (0, 0) = e := by
  rw [List.getLast?_eq_getElem?] at h
  rw [List.getD_eq_getElem?_getD, h]
  rfl

/-- C6: when a non-root node (leaf or internal) underflows,
`CoalesceOrRedistribute` (i) coalesces `node` into its left sibling
(removing parent entry `index`) when a left sibling exists and
`node.size + left_sibling.size < max_size` - appending the entries and
splicing the next pointer for a leaf, pulling the parent separator down
as the bridging key for an internal page; (ii) otherwise coalesces the
right sibling into `node` under the same size condition (removing the
right sibling's parent entry); (iii) otherwise it redistributes without
deleting any page: with the left sibling when it exists, moving its last
entry to the front of `node` and updating the parent separator at
`index` to the moved key (an internal page first receives the old
separator as its entry-0 key), and else with the right sibling, moving
its first entry to the end of `node` and updating the parent separator
at `index + 1` (an internal right sibling's first entry is moved carrying
the old separator as its key). -/
theorem c6_coalesce_or_redistribute (node : CoR.Node) (parent : CoR.Parent)
    (store : Int → CoR.Node) (lsib rsib : CoR.Node) (index : Nat)
    (hidx : CoR.ValueIndex parent node.pageId = index)
    (hls : store (CoR.ValueAt parent (index - 1)) = lsib)
    (hrs : store (CoR.ValueAt parent (index + 1)) = rsib) :
    (1 ≤ index → CoR.GetSize node + CoR.GetSize lsib < node.maxSize →
      CoR.CoalesceOrRedistribute node parent store =
        { action := .coalesceLeft, node := node,
          sib := if node.isLeaf then CoR.MoveAllTo node lsib
                 else CoR.MoveAllToInternal node lsib (CoR.KeyAt parent index),
          parent := parent.Remove index, deletedPageSet := [node.pageId],
          ret := true }) ∧
    (¬ (1 ≤ index ∧ CoR.GetSize node + CoR.GetSize lsib < node.maxSize) →
      index + 1 < parent.entries.length →
      CoR.GetSize node + CoR.GetSize rsib < node.maxSize →
      CoR.CoalesceOrRedistribute node parent store =
        { action := .coalesceRight,
          node := if node.isLeaf then CoR.MoveAllTo rsib node
                  else CoR.MoveAllToInternal rsib node
                    (CoR.KeyAt parent (index + 1)),
          sib := rsib,
          parent := parent.Remove (index + 1), deletedPageSet := [rsib.pageId],
          ret := true }) ∧
    (¬ (1 ≤ index ∧ CoR.GetSize node + CoR.GetSize lsib < node.maxSize) →
      ¬ (index + 1 < parent.entries.length ∧
          CoR.GetSize node + CoR.GetSize rsib < node.maxSize) →
      1 ≤ index → node.isLeaf = true →
      ∀ e, lsib.entries.getLast? = some e →
      CoR.CoalesceOrRedistribute node parent store =
        { action := .redistributeLeft,
          node := { node with entries := e :: node.entries },
          sib := { lsib with entries := lsib.entries.dropLast },
          parent := CoR.SetKeyAt parent index e.1,
          deletedPageSet := [], ret := false }) ∧
    (¬ (1 ≤ index ∧ CoR.GetSize node + CoR.GetSize lsib < node.maxSize) →
      ¬ (index + 1 < parent.entries.length ∧
          CoR.GetSize node + CoR.GetSize rsib < node.maxSize) →
      1 ≤ index → node.isLeaf = false →
      ∀ e, lsib.entries.getLast? = some e →
      CoR.CoalesceOrRedistribute node parent store =
        { action := .redistributeLeft,
          node := { node with
            entries := e :: CoR.setKey0 (CoR.KeyAt parent index) node.entries },
          sib := { lsib with entries := lsib.entries.dropLast },
          parent := CoR.SetKeyAt parent index e.1,
          deletedPageSet := [], ret := false }) ∧
    (¬ (1 ≤ index ∧ CoR.GetSize node + CoR.GetSize lsib < node.maxSize) →
      ¬ (index + 1 < parent.entries.length ∧
          CoR.GetSize node + CoR.GetSize rsib < node.maxSize) →
      ¬ (1 ≤ index) → node.isLeaf = true →
      ∀ e rest, rsib.entries = e :: rest →
      CoR.CoalesceOrRedistribute node parent store =
        { action := .redistributeRight,
          node := { node with entries := node.entries ++ [e] },
          sib := { rsib with entries := rest },
          parent := CoR.SetKeyAt parent (index + 1)
            ((rsib.entries.getD 1 (0, 0)).1),
          deletedPageSet := [], ret := false }) ∧
    (¬ (1 ≤ index ∧ CoR.GetSize node + CoR.GetSize lsib < node.maxSize) →
      ¬ (index + 1 < parent.entries.length ∧
          CoR.GetSize node + CoR.GetSize rsib < node.maxSize) →
      ¬ (1 ≤ index) → node.isLeaf = false →
      ∀ e rest, rsib.entries = e :: rest →
      CoR.CoalesceOrRedistribute node parent store =
        { action := .redistributeRight,
          node := { node with
            entries := node.entries ++ [(CoR.KeyAt parent (index + 1), e.2)] },
          sib := { rsib with entries := rest },
          parent := CoR.SetKeyAt parent (index + 1) ((rest.getD 0 (0, 0)).1),
          deletedPageSet := [], ret := false }) := by
  have hno1aux : ∀ (P : Prop),
      ¬ (1 ≤ index ∧ CoR.GetSize node + CoR.GetSize lsib < node.maxSize) →
      (1 ≤ index ∧ CoR.IsCoalesce node lsib = true) → P := by
    intro P hno hcon
    exact absurd ⟨hcon.1, by
      have := hcon.2
      simp only [CoR.IsCoalesce, decide_eq_true_eq] at this
      exact this⟩ hno
  have hno2aux : ∀ (P : Prop),
      ¬ (index + 1 < parent.entries.length ∧
          CoR.GetSize node + CoR.GetSize rsib < node.maxSize) →
      (index + 1 < parent.entries.length ∧ CoR.IsCoalesce node rsib = true) →
      P := by
    intro P hno hcon
    exact absurd ⟨hcon.1, by
      have := hcon.2
      simp only [CoR.IsCoalesce, decide_eq_true_eq] at this
      exact this⟩ hno
  refine ⟨?_, ?_, ?_, ?_, ?_, ?_⟩
  · intro h1 h2
    unfold CoR.CoalesceOrRedistribute
    rw [hidx]
    try dsimp only
    rw [hls]
    rw [if_pos ⟨h1, by simp only [CoR.IsCoalesce, decide_eq_true_eq]; exact h2⟩]
  · intro hno1 h1 h2
    unfold CoR.CoalesceOrRedistribute
    rw [hidx]
    try dsimp only
    rw [hls, hrs]
    rw [if_neg (hno1aux _ hno1)]
    rw [if_pos ⟨h1, by simp only [CoR.IsCoalesce, decide_eq_true_eq]; exact h2⟩]
  · intro hno1 hno2 h1 hleaf e hlast
    unfold CoR.CoalesceOrRedistribute
    rw [hidx]
    try dsimp only
    rw [hls, hrs]
    rw [if_neg (hno1aux _ hno1)]
    rw [if_neg (hno2aux _ hno2)]
    rw [if_pos h1, if_pos hleaf]
    try dsimp only
    unfold CoR.KeyAtNode
    rw [getD_of_getLast? hlast]
    unfold CoR.MoveLastToFrontOf
    rw [hlast]
  · intro hno1 hno2 h1 hint e hlast
    unfold CoR.CoalesceOrRedistribute
    rw [hidx]
    try dsimp only
    rw [hls, hrs]
    rw [if_neg (hno1aux _ hno1)]
    rw [if_neg (hno2aux _ hno2)]
    rw [if_pos h1, if_neg (by rw [hint]; exact Bool.false_ne_true)]
    try dsimp only
    unfold CoR.KeyAtNode
    rw [getD_of_getLast? hlast]
    unfold CoR.MoveLastToFrontOf
    rw [hlast]
  · intro hno1 hno2 hnol hleaf e rest hcons
    unfold CoR.CoalesceOrRedistribute
    rw [hidx]
    try dsimp only
    rw [hls, hrs]
    rw [if_neg (hno1aux _ hno1)]
    rw [if_neg (hno2aux _ hno2)]
    rw [if_neg hnol, if_pos hleaf]
    try dsimp only
    unfold CoR.KeyAtNode CoR.MoveFirstToEndOf
    rw [hcons]
  · intro hno1 hno2 hnol hint e rest hcons
    unfold CoR.CoalesceOrRedistribute
    rw [hidx]
    try dsimp only
    rw [hls, hrs]
    rw [if_neg (hno1aux _ hno1)]
    rw [if_neg (hno2aux _ hno2)]
    rw [if_neg hnol, if_neg (by rw [hint]; exact Bool.false_ne_true)]
    try dsimp only
    rw [hcons]
    try dsimp only [CoR.setKey0]
    unfold CoR.KeyAtNode CoR.MoveFirstToEndOf
    try dsimp only
    try simp only [List.getD_cons_succ, List.getD_cons_zero]

/-- Witness for `c6_coalesce_or_redistribute`: five concrete cases - a
leaf coalescing into its one-entry left sibling (`1 + 1 < 4`); an
internal page coalescing into its left sibling with the parent separator
`7` pulled down as the bridging key; a leaf redistributing from its left
sibling (sizes `2 + 2` block coalescing); an internal page
redistributing from its left sibling (the old separator `7` becomes its
entry-0 key, the sibling's last key `3` goes up); and an internal page
redistributing from its right sibling (the separator `7` moves down with
the transferred child, the sibling's next key `8` goes up). -/
theorem c6_witness :
    CoR.CoalesceOrRedistribute ⟨20, true, [(5, 5)], 4, -1⟩ ⟨[(0, 10), (5, 20)]⟩
        (fun pid => if pid == 10 then ⟨10, true, [(1, 1)], 4, 20⟩
          else ⟨0, true, [], 4, -1⟩)
      = { action := .coalesceLeft, node := ⟨20, true, [(5, 5)], 4, -1⟩,
          sib := ⟨10, true, [(1, 1), (5, 5)], 4, -1⟩, parent := ⟨[(0, 10)]⟩,
          deletedPageSet := [20], ret := true } ∧
    CoR.CoalesceOrRedistribute ⟨20, false, [(0, 21)], 4, -1⟩
        ⟨[(0, 10), (7, 20)]⟩
        (fun pid => if pid == 10 then ⟨10, false, [(0, 11), (3, 12)], 4, -1⟩
          else ⟨0, true, [], 4, -1⟩)
      = { action := .coalesceLeft, node := ⟨20, false, [(0, 21)], 4, -1⟩,
          sib := ⟨10, false, [(0, 11), (3, 12), (7, 21)], 4, -1⟩,
          parent := ⟨[(0, 10)]⟩, deletedPageSet := [20], ret := true } ∧
    CoR.CoalesceOrRedistribute ⟨20, true, [(5, 5), (6, 6)], 4, -1⟩
        ⟨[(0, 10), (5, 20)]⟩
        (fun pid => if pid == 10 then ⟨10, true, [(1, 1), (2, 2)], 4, 20⟩
          else ⟨0, true, [], 4, -1⟩)
      = { action := .redistributeLeft,
          node := ⟨20, true, [(2, 2), (5, 5), (6, 6)], 4, -1⟩,
          sib := ⟨10, true, [(1, 1)], 4, 20⟩, parent := ⟨[(0, 10), (2, 20)]⟩,
          deletedPageSet := [], ret := false } ∧
    CoR.CoalesceOrRedistribute ⟨20, false, [(0, 21), (5, 22)], 4, -1⟩
        ⟨[(0, 10), (7, 20)]⟩
        (fun pid => if pid == 10 then
            ⟨10, false, [(0, 11), (2, 12), (3, 13)], 4, -1⟩
          else ⟨0, true, [], 4, -1⟩)
      = { action := .redistributeLeft,
          node := ⟨20, false, [(3, 13), (7, 21), (5, 22)], 4, -1⟩,
          sib := ⟨10, false, [(0, 11), (2, 12)], 4, -1⟩,
          parent := ⟨[(0, 10), (3, 20)]⟩,
          deletedPageSet := [], ret := false } ∧
    CoR.CoalesceOrRedistribute ⟨20, false, [(0, 21), (5, 22)], 4, -1⟩
        ⟨[(0, 20), (7, 30)]⟩
        (fun pid => if pid == 30 then
            ⟨30, false, [(0, 31), (8, 32), (9, 33)], 4, -1⟩
          else ⟨0, true, [], 4, -1⟩)
      = { action := .redistributeRight,
          node := ⟨20, false, [(0, 21), (5, 22), (7, 31)], 4, -1⟩,
          sib := ⟨30, false, [(8, 32), (9, 33)], 4, -1⟩,
          parent := ⟨[(0, 20), (8, 30)]⟩,
          deletedPageSet := [], ret := false } := by
  refine ⟨?_, ?_, ?_, ?_, ?_⟩
  · have h := c6_coalesce_or_redistribute ⟨20, true, [(5, 5)], 4, -1⟩
      ⟨[(0, 10), (5, 20)]⟩
      (fun pid => if pid == 10 then ⟨10, true, [(1, 1)], 4, 20⟩
        else ⟨0, true, [], 4, -1⟩)
      ⟨10, true, [(1, 1)], 4, 20⟩ ⟨0, true, [], 4, -1⟩ 1
      (by decide) (by decide) (by decide)
    exact (h.1 (by decide) (by decide)).trans (by decide)
  · have h := c6_coalesce_or_redistribute ⟨20, false, [(0, 21)], 4, -1⟩
      ⟨[(0, 10), (7, 20)]⟩
      (fun pid => if pid == 10 then ⟨10, false, [(0, 11), (3, 12)], 4, -1⟩
        else ⟨0, true, [], 4, -1⟩)
      ⟨10, false, [(0, 11), (3, 12)], 4, -1⟩ ⟨0, true, [], 4, -1⟩ 1
      (by decide) (by decide) (by decide)
    exact (h.1 (by decide) (by decide)).trans (by decide)
  · have h := c6_coalesce_or_redistribute ⟨20, true, [(5, 5), (6, 6)], 4, -1⟩
      ⟨[(0, 10), (5, 20)]⟩
      (fun pid => if pid == 10 then ⟨10, true, [(1, 1), (2, 2)], 4, 20⟩
        else ⟨0, true, [], 4, -1⟩)
      ⟨10, true, [(1, 1), (2, 2)], 4, 20⟩ ⟨0, true, [], 4, -1⟩ 1
      (by decide) (by decide) (by decide)
    exact ((h.2.2.1 (by decide) (by decide) (by decide) (by decide) (2, 2)
      (by decide))).trans (by decide)
  · have h := c6_coalesce_or_redistribute
      ⟨20, false, [(0, 21), (5, 22)], 4, -1⟩ ⟨[(0, 10), (7, 20)]⟩
      (fun pid => if pid == 10 then
          ⟨10, false, [(0, 11), (2, 12), (3, 13)], 4, -1⟩
        else ⟨0, true, [], 4, -1⟩)
      ⟨10, false, [(0, 11), (2, 12), (3, 13)], 4, -1⟩ ⟨0, true, [], 4, -1⟩ 1
      (by decide) (by decide) (by decide)
    exact ((h.2.2.2.1 (by decide) (by decide) (by decide) (by decide) (3, 13)
      (by decide))).trans (by decide)
  · have h := c6_coalesce_or_redistribute
      ⟨20, false, [(0, 21), (5, 22)], 4, -1⟩ ⟨[(0, 20), (7, 30)]⟩
      (fun pid => if pid == 30 then
          ⟨30, false, [(0, 31), (8, 32), (9, 33)], 4, -1⟩
        else ⟨0, true, [], 4, -1⟩)
      ⟨0, true, [], 4, -1⟩
      ⟨30, false, [(0, 31), (8, 32), (9, 33)], 4, -1⟩ 0
      (by decide) (by decide) (by decide)
    exact ((h.2.2.2.2.2 (by decide) (by decide) (by decide) (by decide)
      (0, 31) [(8, 32), (9, 33)] (by decide))).trans (by decide)


namespace BPT


/-- Abstraction of the on-disk B+ tree reachable from the root: a leaf holds
its key/value array; an internal page holds its leftmost child pointer
(`array[0].second`, whose key slot is unused) followed by the remaining
`(key, child)` entries. -/
inductive BTNode where
  | leaf (entries : List (Int × Int))
  | internal (first : BTNode) (rest : List (Int × BTNode))

/-- Modelled from the spec: `LeafPage::Lookup` (the leaf-page source is not in
`src/`); ordered search for `key` in the leaf's entry array, used by
`InsertIntoLeaf` at line 154 of `b_plus_tree.cpp` for the duplicate check. -/
def leafLookup (es : List (Int × Int)) (k : Int) : Option Int :=
  (es.find? (fun e => e.1 == k)).map Prod.snd

/-- Modelled from the spec: `LeafPage::Insert` (leaf-page source not in
`src/`); spec §4.4 step 4, insert the pair in key order. -/
def leafInsert (k v : Int) : List (Int × Int) → List (Int × Int)
  | [] => [(k, v)]
  | e :: r => if k < e.1 then (k, v) :: e :: r else e :: leafInsert k v r

/-- Result of inserting into a subtree: either the updated subtree, or a
split into a left node, a promoted separator key and a right node that
`InsertIntoParent` must install one level up. -/
inductive InsResult where
  | one (t : BTNode)
  | split (l : BTNode) (sep : Int) (r : BTNode)

mutual
/-- `BPlusTree::InsertIntoLeaf` (b_plus_tree.cpp lines 146-170) and
`InsertIntoParent` (lines 202-230) composed recursively over the subtree:
at a leaf, return `false` on duplicate (line 154), otherwise insert and
split when `size == max_size` (line 160), promoting a copy of the new
leaf's first key; at an internal node, descend, install a returned split
entry after the child's position (`InsertNodeAfter`, line 224), and split
when the node overflows `size > max_size` (line 227), the promoted
separator being removed from the children. The split halves follow the
spec's "move upper half" (the page `MoveHalfTo` sources are not in
`src/`). The second component of the result is the `Insert` return value;
the fourth component of `insertInto`'s result records whether the child
slot grew by a split, so that the overflow check only fires after an
actual split, as in the code where `InsertIntoParent` runs only from the
split branches. -/
def insertNode (lm im k v : Int) : BTNode → InsResult × Bool
  | .leaf es =>
    if (leafLookup es k).isSome then (.one (.leaf es), false)
    else
      let es1 := leafInsert k v es
      if (es1.length : Int) == lm then
        let half := (es1.length + 1) / 2
        match es1.drop half with
        | [] => (.one (.leaf es1), true)
        | e :: rtail => (.split (.leaf (es1.take half)) e.1 (.leaf (e :: rtail)), true)
      else (.one (.leaf es1), true)
  | .internal first rest =>
    let res := insertInto lm im k v first rest
    if res.2.2.2 = true ∧ (1 + res.2.1.length : Int) > im then
      let m := (res.2.1.length + 2) / 2
      match res.2.1.drop (m - 1) with
      | [] => (.one (.internal res.1 res.2.1), res.2.2.1)
      | (sep, c) :: rtail =>
        (.split (.internal res.1 (res.2.1.take (m - 1))) sep (.internal c rtail),
         res.2.2.1)
    else (.one (.internal res.1 res.2.1), res.2.2.1)
termination_by t => sizeOf t
decreasing_by all_goals simp_wf

def insertInto (lm im k v : Int) (first : BTNode) :
    List (Int × BTNode) → BTNode × List (Int × BTNode) × Bool × Bool
  | [] =>
    match insertNode lm im k v first with
    | (.one t, b) => (t, [], b, false)
    | (.split l sep r, b) => (l, [(sep, r)], b, true)
  | (s, c) :: tail =>
    if k < s then
      match insertNode lm im k v first with
      | (.one t, b) => (t, (s, c) :: tail, b, false)
      | (.split l sep r, b) => (l, (sep, r) :: (s, c) :: tail, b, true)
    else
      let res := insertInto lm im k v c tail
      (first, (s, res.1) :: res.2.1, res.2.2)
termination_by rest => sizeOf first + sizeOf rest
decreasing_by all_goals simp_wf <;> omega
end

mutual
/-- The multiset of keys stored at the leaves of a subtree (separator keys
of internal pages are routing information, not stored pairs). -/
def treeKeys : BTNode → List Int
  | .leaf es => es.map Prod.fst
  | .internal first rest => treeKeys first ++ restKeys rest

def restKeys : List (Int × BTNode) → List Int
  | [] => []
  | (_, c) :: r => treeKeys c ++ restKeys r
end


/-- Keys stored in an insertion result, before the split (if any) is
installed in the parent. -/
def resKeys : InsResult → List Int
  | .one t => treeKeys t
  | .split l _ r => treeKeys l ++ treeKeys r





def lbOK (lo : Option Int) (x : Int) : Bool :=
  match lo with | none => true | some l => decide (l <= x)

def ubOK (hi : Option Int) (x : Int) : Bool :=
  match hi with | none => true | some h => decide (x < h)

/-- `x` lies in the half-open window `[lo, hi)` (`none` meaning unbounded). -/
def inB (lo hi : Option Int) (x : Int) : Bool := lbOK lo x && ubOK hi x

mutual
/-- Modelled from the spec: §4.2/§8 key-ordering invariant - every key in a
subtree lies in the window `[lo, hi)`, and each separator of an internal
page bounds its left subtree above and its right subtree below. The
descent in `FindLeafPageWithLock` is guided by exactly this invariant. -/
def wfT (lo hi : Option Int) : BTNode → Bool
  | .leaf es => es.all (fun e => inB lo hi e.1)
  | .internal first rest => wfRest lo hi first rest
termination_by t => sizeOf t
decreasing_by all_goals simp_wf

def wfRest (lo hi : Option Int) (first : BTNode) : List (Int × BTNode) → Bool
  | [] => wfT lo hi first
  | (s, c) :: tail => inB lo hi s && wfT lo (some s) first && wfRest (some s) hi c tail
termination_by rest => sizeOf first + sizeOf rest
decreasing_by all_goals simp_wf <;> omega
end

theorem restKeys_append (l1 l2 : List (Int × BTNode)) :
    restKeys (l1 ++ l2) = restKeys l1 ++ restKeys l2 := by
  induction l1 with
  | nil => rfl
  | cons e r ih =>
    obtain ⟨s, c⟩ := e
    simp [restKeys, ih]

theorem leafLookup_isSome (es : List (Int × Int)) (k : Int) :
    (leafLookup es k).isSome = true ↔ k ∈ es.map Prod.fst := by
  simp [leafLookup, List.find?_isSome]

theorem leafInsert_keys (k v x : Int) (es : List (Int × Int)) :
    x ∈ (leafInsert k v es).map Prod.fst ↔ x = k ∨ x ∈ es.map Prod.fst := by
  induction es with
  | nil => simp [leafInsert]
  | cons e r ih =>
    by_cases h : k < e.1
    · simp [leafInsert, h]
    · simp [leafInsert, h, ih]
      tauto


theorem inB_mono_hi (lo hi : Option Int) (s x : Int) (h1 : inB lo (some s) x = true)
    (h2 : ubOK hi s = true) : inB lo hi x = true := by
  cases lo <;> cases hi <;>
    simp [inB, lbOK, ubOK] at h1 h2 ⊢ <;> omega

theorem inB_mono_lo (lo hi : Option Int) (s x : Int) (h1 : inB (some s) hi x = true)
    (h2 : lbOK lo s = true) : inB lo hi x = true := by
  cases lo <;> cases hi <;>
    simp [inB, lbOK, ubOK] at h1 h2 ⊢ <;> omega

mutual
theorem treeKeys_bounds : ∀ (lo hi : Option Int) (t : BTNode), wfT lo hi t = true →
    ∀ x ∈ treeKeys t, inB lo hi x = true
  | lo, hi, .leaf es => by
    intro h x hx
    simp only [wfT, List.all_eq_true] at h
    simp only [treeKeys, List.mem_map] at hx
    obtain ⟨e, he, rfl⟩ := hx
    exact h e he
  | lo, hi, .internal first rest => by
    intro h x hx
    simp only [wfT] at h
    simp only [treeKeys] at hx
    exact restKeys_bounds lo hi first rest h x hx
termination_by lo hi t => sizeOf t
decreasing_by all_goals simp_wf <;> omega

theorem restKeys_bounds : ∀ (lo hi : Option Int) (first : BTNode)
    (rest : List (Int × BTNode)), wfRest lo hi first rest = true →
    ∀ x ∈ treeKeys first ++ restKeys rest, inB lo hi x = true
  | lo, hi, first, [] => by
    intro h x hx
    simp only [wfRest] at h
    simp only [restKeys, List.append_nil] at hx
    exact treeKeys_bounds lo hi first h x hx
  | lo, hi, first, (s, c) :: tail => by
    intro h x hx
    simp only [wfRest, Bool.and_eq_true, inB] at h
    obtain ⟨⟨⟨hs1, hs2⟩, hf⟩, hc⟩ := h
    simp only [restKeys, List.mem_append] at hx
    rcases hx with hx | hx | hx
    · exact inB_mono_hi lo hi s x (treeKeys_bounds lo (some s) first hf x hx) hs2
    · exact inB_mono_lo lo hi s x
        (restKeys_bounds (some s) hi c tail hc x (by simp [List.mem_append, hx]))
        hs1
    · exact inB_mono_lo lo hi s x
        (restKeys_bounds (some s) hi c tail hc x (by simp [List.mem_append, hx]))
        hs1
termination_by lo hi first rest => sizeOf first + sizeOf rest
decreasing_by all_goals simp_wf <;> omega
end


mutual
theorem insertNode_dup : ∀ (lm im k v : Int) (lo hi : Option Int) (t : BTNode),
    wfT lo hi t = true → k ∈ treeKeys t →
    insertNode lm im k v t = (.one t, false)
  | lm, im, k, v, lo, hi, .leaf es => by
    intro _ hk
    simp only [treeKeys] at hk
    have hl : (leafLookup es k).isSome = true := (leafLookup_isSome es k).mpr hk
    simp [insertNode, hl]
  | lm, im, k, v, lo, hi, .internal first rest => by
    intro hwf hk
    simp only [wfT] at hwf
    simp only [treeKeys] at hk
    have hres := insertInto_dup lm im k v lo hi first rest hwf hk
    simp [insertNode, hres]
termination_by lm im k v lo hi t => sizeOf t
decreasing_by all_goals simp_wf <;> omega

theorem insertInto_dup : ∀ (lm im k v : Int) (lo hi : Option Int) (first : BTNode)
    (rest : List (Int × BTNode)), wfRest lo hi first rest = true →
    k ∈ treeKeys first ++ restKeys rest →
    insertInto lm im k v first rest = (first, rest, false, false)
  | lm, im, k, v, lo, hi, first, [] => by
    intro hwf hk
    simp only [wfRest] at hwf
    simp only [restKeys, List.append_nil] at hk
    have hres := insertNode_dup lm im k v lo hi first hwf hk
    simp [insertInto, hres]
  | lm, im, k, v, lo, hi, first, (s, c) :: tail => by
    intro hwf hk
    simp only [wfRest, Bool.and_eq_true, inB] at hwf
    obtain ⟨⟨⟨hs1, hs2⟩, hf⟩, hc⟩ := hwf
    simp only [restKeys, List.mem_append] at hk
    by_cases hlt : k < s
    · have hkf : k ∈ treeKeys first := by
        rcases hk with hk | hk | hk
        · exact hk
        · have := restKeys_bounds (some s) hi c tail hc k (by simp [List.mem_append, hk])
          simp [inB, lbOK] at this
          omega
        · have := restKeys_bounds (some s) hi c tail hc k (by simp [List.mem_append, hk])
          simp [inB, lbOK] at this
          omega
      have hres := insertNode_dup lm im k v lo (some s) first hf hkf
      simp [insertInto, hlt, hres]
    · have hkc : k ∈ treeKeys c ++ restKeys tail := by
        rcases hk with hk | hk | hk
        · have := treeKeys_bounds lo (some s) first hf k hk
          simp [inB, ubOK] at this
          omega
        · simp [List.mem_append, hk]
        · simp [List.mem_append, hk]
      have hres := insertInto_dup lm im k v (some s) hi c tail hc hkc
      simp [insertInto, hlt, hres]
termination_by lm im k v lo hi first rest => sizeOf first + sizeOf rest
decreasing_by all_goals simp_wf <;> omega
end


theorem restKeys_take_drop (n : Nat) (l : List (Int × BTNode)) :
    restKeys l = restKeys (l.take n) ++ restKeys (l.drop n) := by
  conv_lhs => rw [← List.take_append_drop n l]
  exact restKeys_append _ _

set_option maxHeartbeats 1000000 in
mutual
theorem insertNode_new : ∀ (lm im k v : Int) (t : BTNode), k ∉ treeKeys t →
    (insertNode lm im k v t).2 = true ∧
    ∀ x, x ∈ resKeys (insertNode lm im k v t).1 ↔ x = k ∨ x ∈ treeKeys t
  | lm, im, k, v, .leaf es => by
    intro hk
    simp only [treeKeys] at hk
    have hl : (leafLookup es k).isSome = false := by
      rw [← Bool.not_eq_true, leafLookup_isSome]
      exact hk
    simp only [insertNode, hl, Bool.false_eq_true, if_false]
    split
    · split
      · refine ⟨rfl, fun x => ?_⟩
        simp only [resKeys, treeKeys]
        exact leafInsert_keys k v x es
      · rename_i e rtail heq
        refine ⟨rfl, fun x => ?_⟩
        simp only [resKeys, treeKeys, ← List.map_append, ← heq,
          List.take_append_drop]
        exact leafInsert_keys k v x es
    · refine ⟨rfl, fun x => ?_⟩
      simp only [resKeys, treeKeys]
      exact leafInsert_keys k v x es
  | lm, im, k, v, .internal first rest => by
    intro hk
    simp only [treeKeys] at hk
    obtain ⟨hb, hkeys⟩ := insertInto_new lm im k v first rest hk
    simp only [insertNode]
    generalize hI : insertInto lm im k v first rest = res at hb hkeys ⊢
    obtain ⟨r1, r2, r3, r4⟩ := res
    simp only at hb hkeys ⊢
    split
    · split
      · refine ⟨hb, fun x => ?_⟩
        have hx := hkeys x
        simp only [treeKeys, List.mem_append] at hx
        simp only [resKeys, treeKeys, List.mem_append]
        tauto
      · rename_i sep c rtail heq
        refine ⟨hb, fun x => ?_⟩
        have hx := hkeys x
        rw [restKeys_take_drop ((r2.length + 2) / 2 - 1) r2, heq] at hx
        simp only [treeKeys, restKeys, List.mem_append] at hx
        simp only [resKeys, treeKeys, List.mem_append]
        tauto
    · refine ⟨hb, fun x => ?_⟩
      have hx := hkeys x
      simp only [treeKeys, List.mem_append] at hx
      simp only [resKeys, treeKeys, List.mem_append]
      tauto
termination_by lm im k v t => sizeOf t
decreasing_by all_goals simp_wf <;> omega

theorem insertInto_new : ∀ (lm im k v : Int) (first : BTNode)
    (rest : List (Int × BTNode)), k ∉ treeKeys first ++ restKeys rest →
    (insertInto lm im k v first rest).2.2.1 = true ∧
    ∀ x, x ∈ treeKeys (insertInto lm im k v first rest).1 ++
        restKeys (insertInto lm im k v first rest).2.1 ↔
      x = k ∨ x ∈ treeKeys first ++ restKeys rest
  | lm, im, k, v, first, [] => by
    intro hk
    simp only [restKeys, List.append_nil] at hk
    obtain ⟨hb, hkeys⟩ := insertNode_new lm im k v first hk
    simp only [insertInto]
    split
    · rename_i t b heq
      rw [heq] at hb hkeys
      simp only [resKeys] at hkeys
      exact ⟨hb, fun x => by
        simpa only [restKeys, List.append_nil] using hkeys x⟩
    · rename_i l sep r b heq
      rw [heq] at hb hkeys
      simp only [resKeys] at hkeys
      refine ⟨hb, fun x => ?_⟩
      have hx := hkeys x
      simp only [restKeys, List.mem_append, List.append_nil] at hx ⊢
      tauto
  | lm, im, k, v, first, (s, c) :: tail => by
    intro hk
    simp only [restKeys, List.mem_append] at hk
    push_neg at hk
    obtain ⟨hk1, hk2, hk3⟩ := hk
    by_cases hlt : k < s
    · obtain ⟨hb, hkeys⟩ := insertNode_new lm im k v first hk1
      simp only [insertInto, hlt, if_true]
      split
      · rename_i t b heq
        rw [heq] at hb hkeys
        simp only [resKeys] at hkeys
        refine ⟨hb, fun x => ?_⟩
        have hx := hkeys x
        simp only [restKeys, List.mem_append] at hx ⊢
        tauto
      · rename_i l sep r b heq
        rw [heq] at hb hkeys
        simp only [resKeys] at hkeys
        refine ⟨hb, fun x => ?_⟩
        have hx := hkeys x
        simp only [restKeys, List.mem_append] at hx ⊢
        tauto
    · have hk' : k ∉ treeKeys c ++ restKeys tail := by
        simp only [List.mem_append]
        push_neg
        exact ⟨hk2, hk3⟩
      obtain ⟨hb, hkeys⟩ := insertInto_new lm im k v c tail hk'
      simp only [insertInto, hlt, if_false]
      refine ⟨hb, fun x => ?_⟩
      have hx := hkeys x
      simp only [restKeys, List.mem_append] at hx ⊢
      tauto
termination_by lm im k v first rest => sizeOf first + sizeOf rest
decreasing_by all_goals simp_wf <;> omega
end


/-- Keys of a possibly-empty tree (`none` is the empty tree, root
`INVALID_PAGE_ID`). -/
def treeKeysO : Option BTNode → List Int
  | none => []
  | some t => treeKeys t

/-- Well-formedness of a possibly-empty tree. -/
def wfO : Option BTNode → Bool
  | none => true
  | some t => wfT none none t

/-- `BPlusTree::Insert` (b_plus_tree.cpp lines 84-96): an empty tree gets a
fresh root leaf with the single pair (`StartNewTree`, lines 105-120) and
returns `true`; otherwise `InsertIntoLeaf` runs, and if the split
propagates past the root, `InsertIntoParent` (lines 204-216) populates a
new internal root with the old root, the promoted key and the new node. -/
def treeInsert (lm im k v : Int) : Option BTNode → Option BTNode × Bool
  | none => (some (.leaf [(k, v)]), true)
  | some t =>
    match insertNode lm im k v t with
    | (.one u, b) => (some u, b)
    | (.split l sep r, b) => (some (.internal l [(sep, r)]), b)

/-- C4: on a well-formed tree, Insert of a key already present returns
`false` and leaves the tree (hence the stored key/value pairs) unchanged;
Insert of a key not present returns `true` and the stored key set
afterwards is the previous key set plus that key. -/
theorem c4_insert (lm im k v : Int) (T : Option BTNode) (hwf : wfO T = true) :
    (k ∈ treeKeysO T → treeInsert lm im k v T = (T, false)) ∧
    (k ∉ treeKeysO T → (treeInsert lm im k v T).2 = true ∧
      ∀ x, x ∈ treeKeysO (treeInsert lm im k v T).1 ↔ x = k ∨ x ∈ treeKeysO T) := by
  cases T with
  | none =>
    refine ⟨fun hk => absurd hk (by simp [treeKeysO]), fun _ => ?_⟩
    simp [treeInsert, treeKeysO, treeKeys]
  | some t =>
    simp only [wfO] at hwf
    constructor
    · intro hk
      simp only [treeKeysO] at hk
      have hd := insertNode_dup lm im k v none none t hwf hk
      simp [treeInsert, hd]
    · intro hk
      simp only [treeKeysO] at hk
      obtain ⟨hb, hkeys⟩ := insertNode_new lm im k v t hk
      simp only [treeInsert]
      split
      · rename_i u b heq
        rw [heq] at hb hkeys
        simp only [resKeys] at hkeys
        exact ⟨hb, fun x => by simpa [treeKeysO] using hkeys x⟩
      · rename_i l sep r b heq
        rw [heq] at hb hkeys
        simp only [resKeys] at hkeys
        refine ⟨hb, fun x => ?_⟩
        have hx := hkeys x
        simp only [treeKeysO, treeKeys, restKeys, List.mem_append,
          List.append_nil, List.mem_append] at hx ⊢
        tauto

/-- A concrete two-leaf tree used to witness `c4_insert`. -/
def c4tree : BTNode :=
  .internal (.leaf [(1, 10), (2, 20)]) [(3, .leaf [(3, 30), (4, 40)])]

/-- Witness for `c4_insert`: on the concrete tree, inserting absent key 5
returns `true`, and inserting present key 3 returns `false` with the tree
unchanged. -/
theorem c4_insert_witness :
    wfO (some c4tree) = true ∧
    (5 : Int) ∉ treeKeysO (some c4tree) ∧
    (treeInsert 4 4 5 50 (some c4tree)).2 = true ∧
    (3 : Int) ∈ treeKeysO (some c4tree) ∧
    treeInsert 4 4 3 99 (some c4tree) = (some c4tree, false) := by
  have hwf : wfO (some c4tree) = true := by
    simp [wfO, c4tree, wfT, wfRest, inB, lbOK, ubOK]
  have hnot : (5 : Int) ∉ treeKeysO (some c4tree) := by decide
  have hmem : (3 : Int) ∈ treeKeysO (some c4tree) := by decide
  exact ⟨hwf, hnot, ((c4_insert 4 4 5 50 (some c4tree) hwf).2 hnot).1, hmem,
    (c4_insert 4 4 3 99 (some c4tree) hwf).1 hmem⟩

end BPT

end Bustub
